import Mathlib

/-!
# Verification of the room-detection core of `archviz-ai`

Shallow embedding of the room-detection core of the repository:

* `src/core/dwg_parser/wall_graph.py` — `GraphNode`, `GraphEdge`, `WallGraph`
  (`add_wall`, `_add_segment`, `_get_or_create_node`, `find_node_near`,
  `get_edges_from_node`, `get_other_node`, `find_cycles`, `_trace_cycle`,
  `_find_rightmost_edge`, `_remove_outer_boundary`);
* `src/core/dwg_parser/spatial_utils.py` — `polygon_area`, `distance`;
* `src/core/dwg_parser/room_classifier.py` — `RoomContext`,
  `RoomClassification`, `RoomClassifier.classify`, `_infer_from_fixtures`,
  `_infer_from_text`, the `FIXTURE_PATTERNS` / `TEXT_PATTERNS` tables.

Modelling conventions, stated once:

* Python floats are modelled by `ℚ` (idealized exact real arithmetic;
  coordinates in the repository's own tests are small decimals).
  `distance(p, q) <= tol` (with `distance` the Euclidean norm,
  `spatial_utils.distance`) is modelled by the equivalent exact comparison
  `0 ≤ tol ∧ distSq p q ≤ tol²`, and `dist < best_dist` by
  `distSq < best_distSq`, avoiding the square root.
* Python `uuid` identifiers (`GraphNode.id`, `GraphEdge.id`) exist only to be
  fresh and comparable; they are modelled by `Nat` counters stored in the
  graph (`node_count` mirrors the source's `_node_count`; an `edge_count`
  counter plays the role of the edge uuids).
* Python `dict`s iterate in insertion order; they are modelled by lists kept
  in insertion order (`nodes`, `edges`, association lists for the classifier
  score dictionaries).  The R-tree spatial index of `find_node_near` is
  modelled by scanning `nodes` in insertion order: the source inserts every
  node into the index exactly once and the index query only prefilters by the
  bounding box, which is reproduced literally below.  (The R-tree's candidate
  iteration order is unspecified; it matters only when two nodes are at
  exactly the same distance from the query point, a case no claim touches.)
* `shapely`'s `Polygon(...).area` with the absolute value applied on top
  (`spatial_utils.polygon_area`) is the absolute shoelace area of the ring.
* The `math.atan2`-based rightmost-turn score of `_find_rightmost_edge` is
  embedded exactly over `ℚ`: the source maximizes
  `-normalize(atan2(out) - atan2(in))` with `normalize` into `[-π, π]`;
  over the reals this total order on candidate directions is characterized
  sign-exactly by cross/dot products (see `turnSector` below for the full
  case analysis, including the `±π` boundary which depends on the sign of
  the incoming `atan2` angle, and `atan2(0, 0) = 0`).
* The optional AI tier of `RoomClassifier` performs a network round trip;
  it is modelled as a caller-supplied collaborator function
  `RoomContext → Option RoomClassification` (`none` = "AI produced no
  decision", exactly the contract `_classify_with_ai` exposes after its
  exception handling).  No claim depends on its internals.
-/

namespace ArchViz

/-- A 2D point, `elements.Point2D` (a pair of floats, modelled by `ℚ`). -/
abbrev Point : Type := ℚ × ℚ

/-! ## spatial_utils.py -/

/-- Squared Euclidean distance; `spatial_utils.distance` squared. -/
def distSq (p q : Point) : ℚ :=
  (q.1 - p.1) ^ 2 + (q.2 - p.2) ^ 2

/-- The signed shoelace sum of a closed ring through the given vertices
(twice the signed area). -/
def shoelace : List Point → Point → ℚ
  | [], _ => 0
  | [p], q => p.1 * q.2 - q.1 * p.2
  | p :: r :: rest, q => (p.1 * r.2 - r.1 * p.2) + shoelace (r :: rest) q

/-- `spatial_utils.polygon_area`: the absolute area of the polygon with the
given vertex list, `0.0` for fewer than 3 vertices. -/
def polygon_area (poly : List Point) : ℚ :=
  if poly.length < 3 then 0
  else
    match poly with
    | [] => 0
    | p :: _ => |shoelace poly p| / 2

/-! ## wall_graph.py — data model -/

/-- `wall_graph.GraphNode`: id, position, incident edge ids. -/
structure GraphNode where
  id : Nat
  position : Point
  edge_ids : List Nat
  deriving Repr, DecidableEq

/-- `wall_graph.GraphEdge`: id, ordered pair of endpoint node ids (as
created: resolved segment start first), source wall id. -/
structure GraphEdge where
  id : Nat
  node_ids : Nat × Nat
  wall_id : Nat
  deriving Repr, DecidableEq

/-- `wall_graph.WallGraph` state: snap tolerance, node map, edge map, the
set of undirected edge keys, and the fresh-id counters. -/
structure WallGraph where
  snap_tolerance : ℚ
  nodes : List GraphNode
  edges : List GraphEdge
  edge_set : List (Nat × Nat)
  node_count : Nat
  edge_count : Nat
  deriving Repr, DecidableEq

/-- `WallGraph.__init__`. -/
def mkWallGraph (snap_tolerance : ℚ) : WallGraph :=
  { snap_tolerance := snap_tolerance
    nodes := []
    edges := []
    edge_set := []
    node_count := 0
    edge_count := 0 }

/-- A wall: ordered point list plus an id (`elements.Wall`; thickness and
height metadata are unused by the graph and omitted). -/
structure Wall where
  id : Nat
  points : List Point
  deriving Repr, DecidableEq

/-! ## wall_graph.py — construction -/

/-- Node lookup `self.nodes.get(node_id)` (dict keyed by `node.id`). -/
def findNode (g : WallGraph) (nid : Nat) : Option GraphNode :=
  g.nodes.find? (fun n => n.id = nid)

/-- `WallGraph.find_node_near`: R-tree box query (side `2*tolerance`,
boundary inclusive) followed by the closest-within-tolerance scan.  Distances
are compared squared (exact over `ℚ`, see header). -/
def find_node_near (g : WallGraph) (position : Point) (tolerance : ℚ) :
    Option GraphNode :=
  let candidates := g.nodes.filter (fun n =>
    decide (position.1 - tolerance ≤ n.position.1) &&
    decide (n.position.1 ≤ position.1 + tolerance) &&
    decide (position.2 - tolerance ≤ n.position.2) &&
    decide (n.position.2 ≤ position.2 + tolerance))
  let best := candidates.foldl
    (fun (best : Option (GraphNode × ℚ)) (n : GraphNode) =>
      let d2 := distSq position n.position
      if 0 ≤ tolerance ∧ d2 ≤ tolerance ^ 2 then
        match best with
        | none => some (n, d2)
        | some (_, bd2) => if d2 < bd2 then some (n, d2) else best
      else best)
    none
  best.map Prod.fst

/-- `WallGraph._get_or_create_node`: returns the (possibly grown) graph and
the resolved node. -/
def get_or_create_node (g : WallGraph) (position : Point) :
    WallGraph × GraphNode :=
  match find_node_near g position g.snap_tolerance with
  | some n => (g, n)
  | none =>
      let n : GraphNode := { id := g.node_count, position := position, edge_ids := [] }
      ({ g with nodes := g.nodes ++ [n], node_count := g.node_count + 1 }, n)

/-- The undirected edge key: the sorted pair of node ids
(`sorted([node_a.id, node_b.id])`). -/
def sortPair (a b : Nat) : Nat × Nat :=
  if a ≤ b then (a, b) else (b, a)

/-- Append `eid` to the `edge_ids` of the node with id `nid`. -/
def pushEdgeId (nodes : List GraphNode) (nid eid : Nat) : List GraphNode :=
  nodes.map (fun n => if n.id = nid then { n with edge_ids := n.edge_ids ++ [eid] } else n)

/-- `WallGraph._add_segment`: resolve both endpoints (in order), drop the
segment if degenerate or if its undirected key already has an edge, else
create the edge and register it on both nodes. -/
def add_segment (g : WallGraph) (pStart pEnd : Point) (wall_id : Nat) : WallGraph :=
  let r1 := get_or_create_node g pStart
  let g1 := r1.1
  let node_a := r1.2
  let r2 := get_or_create_node g1 pEnd
  let g2 := r2.1
  let node_b := r2.2
  if node_a.id = node_b.id then g2
  else
    let edge_key := sortPair node_a.id node_b.id
    if edge_key ∈ g2.edge_set then g2
    else
      let e : GraphEdge := { id := g2.edge_count, node_ids := (node_a.id, node_b.id), wall_id := wall_id }
      { g2 with
        edges := g2.edges ++ [e]
        edge_set := g2.edge_set ++ [edge_key]
        edge_count := g2.edge_count + 1
        nodes := pushEdgeId (pushEdgeId g2.nodes node_a.id e.id) node_b.id e.id }

/-- The consecutive point pairs of a wall (the segments `add_wall` inserts). -/
def wallSegments : List Point → List (Point × Point)
  | p :: q :: rest => (p, q) :: wallSegments (q :: rest)
  | _ => []

/-- `WallGraph.add_wall`: insert the `N-1` segments of an `N`-point wall
(walls with fewer than 2 points are ignored). -/
def add_wall (g : WallGraph) (w : Wall) : WallGraph :=
  if w.points.length < 2 then g
  else (wallSegments w.points).foldl (fun g' s => add_segment g' s.1 s.2 w.id) g

/-- `WallGraph.add_walls`. -/
def add_walls (g : WallGraph) (ws : List Wall) : WallGraph :=
  ws.foldl add_wall g

/-! ## wall_graph.py — accessors -/

/-- `WallGraph.get_edges_from_node`: the edges listed on the node, dropping
ids not present in the edge map. -/
def get_edges_from_node (g : WallGraph) (nid : Nat) : List GraphEdge :=
  match findNode g nid with
  | none => []
  | some n => n.edge_ids.filterMap (fun eid => g.edges.find? (fun e => e.id = eid))

/-- `WallGraph.get_other_node`. -/
def get_other_node (g : WallGraph) (e : GraphEdge) (nid : Nat) : Option GraphNode :=
  if e.node_ids.1 = nid then findNode g e.node_ids.2
  else if e.node_ids.2 = nid then findNode g e.node_ids.1
  else none

/-! ## wall_graph.py — the rightmost-turn rule

`_find_rightmost_edge` computes, for each candidate outgoing edge, the float
`turn = normalize(atan2(out) - atan2(in)) ∈ [-π, π]` and keeps the candidate
maximizing `-turn` (strict improvement, so the first maximum wins).  Over the
reals this order is decided sign-exactly as follows.  Write `θ(u)` for the
normalized turn of the outgoing direction `u` against the incoming direction
`d`, and treat the zero vector as direction `(1, 0)` (`atan2(0, 0) = 0`).

* `θ(u) ∈ (-π, 0)` iff `cross d u < 0` (right turn),
* `θ(u) = 0` iff `cross d u = 0` and `dot d u > 0` (straight on),
* `θ(u) ∈ (0, π)` iff `cross d u > 0` (left turn),
* `cross d u = 0, dot d u < 0` (U-turn): the raw difference
  `atan2(out) - atan2(in)` is exactly `-π` when `atan2(in) > 0` and exactly
  `+π` otherwise, and the normalization loop keeps those endpoint values; so
  `θ(u) = -π` iff the incoming `atan2` angle is positive, i.e. iff
  `d.2 > 0 ∨ (d.2 = 0 ∧ d.1 < 0)`, else `θ(u) = π`.

Within the two open half-plane cases, `θ(u) < θ(v)` iff `cross u v > 0`
(both angles lie in a common open interval of length `π`).  `turnSector`
assigns each candidate its case, numbered in increasing `θ`. -/

/-- 2D cross product `d × u`. -/
def cross2 (d u : Point) : ℚ := d.1 * u.2 - d.2 * u.1

/-- 2D dot product. -/
def dot2 (d u : Point) : ℚ := d.1 * u.1 + d.2 * u.2

/-- Replace the zero vector by `(1, 0)`: `atan2(0, 0) = 0`. -/
def dirOf (u : Point) : Point := if u = (0, 0) then (1, 0) else u

/-- Whether `atan2(d.2, d.1) > 0`, i.e. the incoming angle lies in `(0, π]`. -/
def atanPos (d : Point) : Bool := decide (0 < d.2) || (decide (d.2 = 0) && decide (d.1 < 0))

/-- The case of the normalized turn angle `θ(u)` of outgoing direction `u`
against incoming direction `d`, numbered in increasing `θ`:
`0 ↦ θ = -π`, `1 ↦ θ ∈ (-π, 0)`, `2 ↦ θ = 0`, `3 ↦ θ ∈ (0, π)`, `4 ↦ θ = π`.
Both `d` and `u` are taken `dirOf`-normalized by the caller. -/
def turnSector (d u : Point) : Nat :=
  let c := cross2 d u
  if c < 0 then 1
  else if 0 < c then 3
  else if 0 < dot2 d u then 2
  else if atanPos d then 0 else 4

/-- `right_turn_score(u) > right_turn_score(v)`, i.e. `θ(u) < θ(v)`, for
`dirOf`-normalized outgoing directions `u`, `v` against incoming `d`. -/
def turnGt (d u v : Point) : Bool :=
  let su := turnSector d u
  let sv := turnSector d v
  decide (su < sv) ||
    (decide (su = sv) && (decide (su = 1) || decide (su = 3)) && decide (0 < cross2 u v))

/-- `WallGraph._find_rightmost_edge`: among the edges at `current_node`
other than `current_edge`, the first edge maximizing the rightmost-turn
score (strict improvement), skipping candidates whose far node is missing;
`none` at a dead end (fewer than two incident edges). -/
def find_rightmost_edge (g : WallGraph) (current_node prev_node : GraphNode)
    (current_edge : GraphEdge) : Option GraphEdge :=
  let edges := get_edges_from_node g current_node.id
  if edges.length = 0 then none
  else if edges.length = 1 then none
  else
    let d := dirOf (current_node.position.1 - prev_node.position.1,
                    current_node.position.2 - prev_node.position.2)
    let best := edges.foldl
      (fun (best : Option (GraphEdge × Point)) (e : GraphEdge) =>
        if e.id = current_edge.id then best
        else
          match get_other_node g e current_node.id with
          | none => best
          | some other =>
              let u := dirOf (other.position.1 - current_node.position.1,
                              other.position.2 - current_node.position.2)
              match best with
              | none => some (e, u)
              | some (_, ub) => if turnGt d u ub then some (e, u) else best)
      none
    best.map Prod.fst

/-! ## wall_graph.py — cycle tracing -/

/-- One directed edge, `(edge_id, from_node_id)`. -/
abbrev DirectedKey : Type := Nat × Nat

/-- The loop body of `WallGraph._trace_cycle`, with the iteration budget as
fuel (the source runs `for _ in range(max_iterations)` and returns `None`
when the range is exhausted).  Accumulates the visited node ids and the
consumed directed keys; on success returns both. -/
def traceAux (g : WallGraph) (used : List DirectedKey) (target : Nat) :
    Nat → GraphEdge → Nat → GraphNode → List Nat → List DirectedKey →
    Option (List Nat × List DirectedKey)
  | 0, _, _, _, _, _ => none
  | fuel + 1, current_edge, current_from, current_node, cycle_nodes, cycle_edges =>
    let directed_key : DirectedKey := (current_edge.id, current_from)
    if directed_key ∈ used then none
    else
      let cycle_nodes := cycle_nodes ++ [current_node.id]
      let cycle_edges := cycle_edges ++ [directed_key]
      if current_node.id = target ∧ 3 ≤ cycle_nodes.length then
        some (cycle_nodes, cycle_edges)
      else
        match findNode g current_from with
        | none => none
        | some prev_node =>
          match find_rightmost_edge g current_node prev_node current_edge with
          | none => none
          | some next_edge =>
            match get_other_node g next_edge current_node.id with
            | none => none
            | some next_node =>
                traceAux g used target fuel next_edge current_node.id next_node
                  cycle_nodes cycle_edges

/-- `WallGraph._trace_cycle`: set up the traversal state and run the loop
with budget `2 * len(edges) + 10`; on success return the vertex positions of
the traced cycle together with the directed keys it consumed (the source
adds them to `used_directed_edges` in place). -/
def trace_cycle (g : WallGraph) (used : List DirectedKey)
    (start_edge : GraphEdge) (start_from : Nat) :
    Option (List Point × List DirectedKey) :=
  match get_other_node g start_edge start_from with
  | none => none
  | some current_node =>
    match findNode g start_from with
    | none => none
    | some _ =>
      match traceAux g used start_from (2 * g.edges.length + 10)
          start_edge start_from current_node [] [] with
      | none => none
      | some (cycle_nodes, cycle_edges) =>
          some (cycle_nodes.filterMap (fun nid => (findNode g nid).map GraphNode.position),
                cycle_edges)

/-- One start attempt of the `find_cycles` outer loop: skip if the directed
key is already used, else trace; returns the cycles found (0 or 1) and the
updated used set. -/
def traceFrom (g : WallGraph) (used : List DirectedKey)
    (e : GraphEdge) (start_from : Nat) : List (List Point) × List DirectedKey :=
  if (e.id, start_from) ∈ used then ([], used)
  else
    match trace_cycle g used e start_from with
    | some (cyc, keys) => ([cyc], used ++ keys)
    | none => ([], used)

/-- The `find_cycles` outer loop: for every edge, attempt both directions. -/
def findCyclesAux (g : WallGraph) : List GraphEdge → List DirectedKey → List (List Point)
  | [], _ => []
  | e :: rest, used =>
    let r1 := traceFrom g used e e.node_ids.1
    let r2 := traceFrom g r1.2 e e.node_ids.2
    r1.1 ++ r2.1 ++ findCyclesAux g rest r2.2

/-- The raw cycles traced by `find_cycles` before filtering. -/
def rawCycles (g : WallGraph) : List (List Point) :=
  findCyclesAux g g.edges []

/-- The index scan of `_remove_outer_boundary`:
`max_area = 0.0; max_index = -1; strict improvement`. -/
def findMaxAreaIdx : List (List Point) → Nat → ℚ → Int → ℚ × Int
  | [], _, max_area, max_index => (max_area, max_index)
  | c :: rest, i, max_area, max_index =>
    if max_area < polygon_area c then findMaxAreaIdx rest (i + 1) (polygon_area c) (i : Int)
    else findMaxAreaIdx rest (i + 1) max_area max_index

/-- `WallGraph._remove_outer_boundary`: drop the first cycle of strictly
maximal positive area; if no cycle has positive area, return the list
unchanged (`max_index` stays `-1`). -/
def remove_outer_boundary (cycles : List (List Point)) : List (List Point) :=
  if cycles.length ≤ 1 then cycles
  else
    let r := findMaxAreaIdx cycles 0 0 (-1)
    if 0 ≤ r.2 then cycles.take r.2.toNat ++ cycles.drop (r.2.toNat + 1)
    else cycles

/-- The cycles surviving the `min_area` filter (`polygon_area(c) >= min_area`). -/
def survivors (g : WallGraph) (min_area : ℚ) : List (List Point) :=
  (rawCycles g).filter (fun c => decide (min_area ≤ polygon_area c))

/-- `WallGraph.find_cycles`. -/
def find_cycles (g : WallGraph) (min_area : ℚ) : List (List Point) :=
  if g.edges.length = 0 then []
  else
    let filtered := survivors g min_area
    if 1 < filtered.length then remove_outer_boundary filtered
    else filtered

/-- `find_cycles` as a state transformer: the method reads but never writes
any field of `self`, so the post-state is the input graph. -/
def find_cycles_st (g : WallGraph) (min_area : ℚ) : List (List Point) × WallGraph :=
  (find_cycles g min_area, g)

/-! ## Graph walks and the well-formedness invariant

Used to state C3 (acyclic graphs yield no cycles) and C4 (the edge
invariant).  A walk is a start node plus a list of steps `(edge id,
arrived-at node id)`. -/

/-- The edge `eid` joins nodes `v` and `w` in `g` (in either orientation). -/
def edgeConnects (g : WallGraph) (eid v w : Nat) : Prop :=
  ∃ e ∈ g.edges, e.id = eid ∧ (e.node_ids = (v, w) ∨ e.node_ids = (w, v))

/-- The steps form a walk in `g` starting at the given node. -/
def validFrom (g : WallGraph) : Nat → List (Nat × Nat) → Prop
  | _, [] => True
  | v, (e, w) :: rest => edgeConnects g e v w ∧ validFrom g w rest

/-- The final node of a walk. -/
def walkEnd (v0 : Nat) (steps : List (Nat × Nat)) : Nat :=
  (steps.map Prod.snd).getLastD v0

/-- No two consecutive steps traverse the same edge. -/
def NonBacktracking (steps : List (Nat × Nat)) : Prop :=
  List.Chain' (fun a b => a ≠ b) (steps.map Prod.fst)

/-- A simple cycle ("closed loop") in `g`: a closed non-backtracking walk of
length at least 3 whose vertices (all but the repeated endpoint) are
pairwise distinct. -/
def SimpleLoop (g : WallGraph) (v0 : Nat) (steps : List (Nat × Nat)) : Prop :=
  validFrom g v0 steps ∧ NonBacktracking steps ∧ 3 ≤ steps.length ∧
    walkEnd v0 steps = v0 ∧ (v0 :: steps.map Prod.snd).dropLast.Nodup

/-- The graph contains no closed loop. -/
def Acyclic (g : WallGraph) : Prop :=
  ¬ ∃ v0 steps, SimpleLoop g v0 steps

/-- The well-formedness invariant a `WallGraph` maintains (C4 plus the
bookkeeping facts that make the induction go through: fresh-id counters and
the `edge_set` mirror). -/
structure GInv (g : WallGraph) : Prop where
  nodes_nodup : (g.nodes.map GraphNode.id).Nodup
  nodes_lt : ∀ n ∈ g.nodes, n.id < g.node_count
  edges_nodup : (g.edges.map GraphEdge.id).Nodup
  edges_lt : ∀ e ∈ g.edges, e.id < g.edge_count
  ends_distinct : ∀ e ∈ g.edges, e.node_ids.1 ≠ e.node_ids.2
  ends_exist : ∀ e ∈ g.edges,
    e.node_ids.1 ∈ g.nodes.map GraphNode.id ∧ e.node_ids.2 ∈ g.nodes.map GraphNode.id
  keyset : g.edge_set = g.edges.map (fun e => sortPair e.node_ids.1 e.node_ids.2)
  keys_nodup : g.edge_set.Nodup

/-! ## room_classifier.py — data model and pattern tables -/

/-- `room_classifier.FIXTURE_PATTERNS`, in source order. -/
def FIXTURE_PATTERNS : List (String × List String) :=
  [ ( "bathroom",
      [ "toilet", "wc", "sink", "basin", "shower", "tub", "bath",
        "bidet", "vanity", "lavatory" ]),
    ( "kitchen",
      [ "stove", "oven", "fridge", "refrigerator", "sink", "dishwasher",
        "range", "cooktop", "microwave", "counter" ]),
    ( "laundry",
      [ "washer", "dryer", "washing", "laundry", "iron" ]),
    ( "bedroom",
      [ "bed", "mattress", "wardrobe", "closet", "nightstand" ]),
    ( "living_room",
      [ "sofa", "couch", "tv", "television", "fireplace", "coffee_table" ]),
    ( "dining_room",
      [ "dining", "table", "chairs" ]),
    ( "office",
      [ "desk", "computer", "bookshelf", "filing" ]),
    ( "garage",
      [ "car", "vehicle", "garage_door" ]) ]

/-- `room_classifier.TEXT_PATTERNS`, in source order. -/
def TEXT_PATTERNS : List (String × List String) :=
  [ ( "living_room",
      [ "living", "lounge", "family room", "great room", "sitting" ]),
    ( "bedroom",
      [ "bedroom", "bed room", "master bed", "guest room", "sleeping" ]),
    ( "bathroom",
      [ "bathroom", "bath room", "restroom", "toilet", "wc", "lavatory",
        "powder room", "half bath", "full bath" ]),
    ( "kitchen",
      [ "kitchen", "kitchenette", "cook" ]),
    ( "hallway",
      [ "hallway", "hall", "corridor", "passage", "entry", "foyer" ]),
    ( "closet",
      [ "closet", "wardrobe", "storage", "pantry" ]),
    ( "garage",
      [ "garage", "carport", "parking" ]),
    ( "dining_room",
      [ "dining", "breakfast", "eat-in" ]),
    ( "office",
      [ "office", "study", "den", "library", "work room" ]),
    ( "laundry",
      [ "laundry", "utility", "mud room" ]),
    ( "pantry",
      [ "pantry", "larder" ]),
    ( "balcony",
      [ "balcony", "terrace", "patio", "deck", "porch" ]),
    ( "conference_room",
      [ "conference", "meeting", "board room" ]),
    ( "reception",
      [ "reception", "lobby", "waiting" ]),
    ( "lobby",
      [ "lobby", "entrance", "vestibule" ]),
    ( "storage",
      [ "storage", "store", "attic", "basement" ]),
    ( "utility",
      [ "utility", "mechanical", "hvac", "electrical" ]) ]

/-- `room_classifier.RoomContext`. -/
structure RoomContext where
  polygon : List Point
  area : ℚ
  aspect_ratio : ℚ
  door_count : Nat := 0
  window_count : Nat := 0
  fixtures : List String := []
  nearby_text : List String := []
  adjacent_rooms : List String := []
  deriving Repr, DecidableEq

/-- `room_classifier.RoomClassification`. -/
structure RoomClassification where
  room_type : String
  confidence : ℚ
  reasoning : String
  deriving Repr, DecidableEq

/-- `RoomClassification.is_low_confidence`: strictly below `0.5`. -/
def RoomClassification.is_low_confidence (r : RoomClassification) : Bool :=
  decide (r.confidence < 0.5)

/-- ASCII lower-casing of one character (`A`–`Z` to `a`–`z`). -/
def charLower (c : Char) : Char :=
  if 65 ≤ c.toNat ∧ c.toNat ≤ 90 then Char.ofNat (c.toNat + 32) else c

/-- Python's `str.lower()` (character-wise; ASCII suffices for the pattern
tables, which are all ASCII). -/
def pyLower (s : String) : String := String.mk (s.data.map charLower)

/-- Contiguous-sublist test on character lists. -/
def subChars (p : List Char) : List Char → Bool
  | [] => p.isEmpty
  | c :: t => p.isPrefixOf (c :: t) || subChars p t

/-- Python's substring test `p in s` (contiguous substring). -/
def pyIn (p s : String) : Bool := subChars p.toList s.toList

/-! ## room_classifier.py — the score dictionaries

The two inference tiers build a `dict` of per-category scores; the dict is
modelled by an association list in key-insertion order.  `maxKeyPair` mirrors
`max(room_scores, key=room_scores.get)`: Python's `max` keeps the first
element attaining the maximum, and the subsequent `room_scores[best]` lookup
is fused into returning the pair. -/

/-- `room_scores[k] = room_scores.get(k, 0) + 1` on an association list. -/
def upsertAdd (scores : List (String × Nat)) (k : String) : List (String × Nat) :=
  if scores.any (fun p => p.1 = k) then
    scores.map (fun p => if p.1 = k then (p.1, p.2 + 1) else p)
  else scores ++ [(k, 1)]

/-- `room_scores[k] = max(room_scores.get(k, 0), v)` on an association list. -/
def upsertMax (scores : List (String × ℚ)) (k : String) (v : ℚ) : List (String × ℚ) :=
  if scores.any (fun p => p.1 = k) then
    scores.map (fun p => if p.1 = k then (p.1, max p.2 v) else p)
  else scores ++ [(k, max 0 v)]

/-- Dictionary lookup on an association list (`d.get(k)`): the value at the
first matching key. -/
def scGet {β : Type} (l : List (String × β)) (k : String) : Option β :=
  (l.find? (fun p => p.1 = k)).map Prod.snd

/-- First pair attaining the maximal value (`max(d, key=d.get)` plus the
value lookup), generic in the value order. -/
def maxKeyPair {β : Type} [LinearOrder β] : List (String × β) → Option (String × β)
  | [] => none
  | p :: rest => some (rest.foldl (fun best q => if best.2 < q.2 then q else best) p)

/-! ## room_classifier.py — fixture tier -/

/-- Whether one fixture name matches the given pattern list
(`any` mirrors the `break` after the first matching pattern: each fixture
counts at most once per room type). -/
def fixtureMatches (patterns : List String) (fixture : String) : Bool :=
  patterns.any (fun pat => pyIn pat (pyLower fixture))

/-- The fixture-tier tally loop over one fixture: bump every room type one
of whose patterns occurs in the lowered fixture name. -/
def fixtureTallyOne (fixture : String) (scores : List (String × Nat)) :
    List (String × Nat) :=
  FIXTURE_PATTERNS.foldl
    (fun sc p => if fixtureMatches p.2 fixture then upsertAdd sc p.1 else sc)
    scores

/-- The full fixture tally (`room_scores` of `_infer_from_fixtures`). -/
def fixtureTally (fixtures : List String) : List (String × Nat) :=
  fixtures.foldl (fun sc f => fixtureTallyOne f sc) []

/-- The confidence formula of `_infer_from_fixtures`
(`1 ↦ 0.6`, `2 ↦ 0.75`, else `min(0.95, 0.75 + (m - 2) * 0.05)`). -/
def fixtureConfidence (m : Nat) : ℚ :=
  if m = 1 then 0.6
  else if m = 2 then 0.75
  else min 0.95 (0.75 + ((m : ℚ) - 2) * 0.05)

/-- `RoomClassifier._infer_from_fixtures`. -/
def infer_from_fixtures (ctx : RoomContext) : Option (String × ℚ) :=
  if ctx.fixtures = [] then none
  else
    let room_scores := fixtureTally ctx.fixtures
    match maxKeyPair room_scores with
    | none => none
    | some (best_room, match_count) => some (best_room, fixtureConfidence match_count)

/-! ## room_classifier.py — text tier -/

/-- The text-tier tally loop over one text and one category row: every
matching pattern contributes `len(pattern) / 10`, kept by maximum (this
inner loop has no `break`). -/
def textTallyRow (lowered : String) (patterns : List String) (k : String)
    (scores : List (String × ℚ)) : List (String × ℚ) :=
  patterns.foldl
    (fun sc pat => if pyIn pat lowered then upsertMax sc k ((pat.length : ℚ) / 10) else sc)
    scores

/-- The text tally over one text label: all category rows in table order. -/
def textTallyOne (text : String) (scores : List (String × ℚ)) : List (String × ℚ) :=
  TEXT_PATTERNS.foldl (fun sc p => textTallyRow (pyLower text) p.2 p.1 sc) scores

/-- The full text tally (`room_scores` of `_infer_from_text`). -/
def textTally (texts : List String) : List (String × ℚ) :=
  texts.foldl (fun sc t => textTallyOne t sc) []

/-- `RoomClassifier._infer_from_text`. -/
def infer_from_text (ctx : RoomContext) : Option (String × ℚ) :=
  if ctx.nearby_text = [] then none
  else
    let room_scores := textTally ctx.nearby_text
    match maxKeyPair room_scores with
    | none => none
    | some (best_room, score) => some (best_room, min 0.85 (0.5 + score))

/-! ## room_classifier.py — classify -/

/-- The AI collaborator: `_classify_with_ai` after its exception handling
(`none` = no decision).  See the header note. -/
abbrev AIService : Type := RoomContext → Option RoomClassification

/-- Tiers 2–4 of `RoomClassifier.classify` (what runs once the fixture tier
has produced no result). -/
def classifyFromTextTier (ai : Option AIService) (ctx : RoomContext) :
    RoomClassification :=
  match infer_from_text ctx with
  | some (room_type, confidence) =>
      { room_type := room_type, confidence := confidence,
        reasoning := "Detected from text labels: " ++ String.intercalate ", " ctx.nearby_text }
  | none =>
    match ai with
    | some svc =>
      match svc ctx with
      | some result => result
      | none =>
          { room_type := "unknown", confidence := 0,
            reasoning := "No fixtures, text labels, or AI classification available" }
    | none =>
        { room_type := "unknown", confidence := 0,
          reasoning := "No fixtures, text labels, or AI classification available" }

/-- `RoomClassifier.classify`: fixture tier first, then text, then AI, then
the unknown fallback. -/
def classify (ai : Option AIService) (ctx : RoomContext) : RoomClassification :=
  match infer_from_fixtures ctx with
  | some (room_type, confidence) =>
      { room_type := room_type, confidence := confidence,
        reasoning := "Detected from fixtures: " ++ String.intercalate ", " ctx.fixtures }
  | none => classifyFromTextTier ai ctx

/-- `RoomClassifier.classify_batch`. -/
def classify_batch (ai : Option AIService) (ctxs : List RoomContext) :
    List RoomClassification :=
  ctxs.map (classify ai)

/-! ## Specification-side score functions

Plain restatements of the spec's wording ("tally of fixtures matching the
category", "maximum of `len(pattern)/10` over all texts and patterns"),
used to state C6/C8/C10 against the implementation's dictionary folds. -/

/-- The fixture pattern list of a category (empty for unknown categories). -/
def fixturePatternsOf (cat : String) : List String :=
  ((FIXTURE_PATTERNS.find? (fun p => p.1 = cat)).map Prod.snd).getD []

/-- Spec-side fixture match count of a category: the number of fixtures at
least one of whose patterns occurs in the lowered fixture name (each fixture
counted at most once per category). -/
def fixtureMatchCount (fixtures : List String) (cat : String) : Nat :=
  fixtures.countP (fun f => fixtureMatches (fixturePatternsOf cat) f)

/-- The text pattern list of a category (empty for unknown categories). -/
def textPatternsOf (cat : String) : List String :=
  ((TEXT_PATTERNS.find? (fun p => p.1 = cat)).map Prod.snd).getD []

/-- Spec-side list of the scores `len(pattern)/10` of every (text, pattern)
match of a category over the given texts. -/
def textScoresOf (texts : List String) (cat : String) : List ℚ :=
  texts.foldr (fun t acc =>
    ((textPatternsOf cat).filter (fun p => pyIn p (pyLower t))).map
      (fun p => (p.length : ℚ) / 10) ++ acc) []

/-! ## Concrete inputs used by the claim theorems and witnesses -/

/-- Four axis-aligned walls forming the 5×4 rectangle at the origin. -/
def rectWalls : List Wall :=
  [ { id := 1, points := [(0, 0), (5, 0)] },
    { id := 2, points := [(5, 0), (5, 4)] },
    { id := 3, points := [(5, 4), (0, 4)] },
    { id := 4, points := [(0, 4), (0, 0)] } ]

/-- The rectangle graph, built with the default snap tolerance `0.05`. -/
def gRect : WallGraph := add_walls (mkWallGraph (1/20)) rectWalls

/-- Three collinear walls on the x-axis: `(0,0)–(1,0)`, `(1,0)–(2,0)` and
the overlapping chord `(0,0)–(2,0)`.  All three segments survive
`_add_segment` (three distinct unordered node pairs), every node has degree
2, and both traversal orientations close into a zero-area "cycle". -/
def colWalls : List Wall :=
  [ { id := 1, points := [(0, 0), (1, 0)] },
    { id := 2, points := [(1, 0), (2, 0)] },
    { id := 3, points := [(0, 0), (2, 0)] } ]

/-- The collinear graph (default snap tolerance). -/
def gCol : WallGraph := add_walls (mkWallGraph (1/20)) colWalls

/-- A single wall: one edge, two nodes, acyclic. -/
def gSingle : WallGraph :=
  add_walls (mkWallGraph (1/20)) [ { id := 1, points := [(0, 0), (1, 0)] } ]

/-! ## Concrete evaluations (shared helper lemmas)

Because Mathlib's `ℚ` arithmetic does not reduce in the kernel, concrete
runs of the embedded program are evaluated by `norm_num` with the
definitional equations, staged through the explicit intermediate states. -/

/-- The rectangle graph, evaluated. -/
theorem gRect_eq : gRect =
    { snap_tolerance := 1/20,
      nodes := [ { id := 0, position := (0, 0), edge_ids := [0, 3] },
                 { id := 1, position := (5, 0), edge_ids := [0, 1] },
                 { id := 2, position := (5, 4), edge_ids := [1, 2] },
                 { id := 3, position := (0, 4), edge_ids := [2, 3] } ],
      edges := [ { id := 0, node_ids := (0, 1), wall_id := 1 },
                 { id := 1, node_ids := (1, 2), wall_id := 2 },
                 { id := 2, node_ids := (2, 3), wall_id := 3 },
                 { id := 3, node_ids := (3, 0), wall_id := 4 } ],
      edge_set := [(0, 1), (1, 2), (2, 3), (0, 3)],
      node_count := 4, edge_count := 4 } := by
  norm_num [gRect, rectWalls, mkWallGraph, add_walls, add_wall, wallSegments,
    add_segment, get_or_create_node, find_node_near, findNode, distSq,
    sortPair, pushEdgeId, List.filter, List.foldl, List.find?]

/-- The two raw faces the traversal extracts from the rectangle, one per
orientation. -/
theorem rawCycles_gRect :
    rawCycles gRect = [ [(5, 0), (5, 4), (0, 4), (0, 0)],
                        [(0, 0), (0, 4), (5, 4), (5, 0)] ] := by
  norm_num [rawCycles, gRect_eq, findCyclesAux, traceFrom, trace_cycle, traceAux,
    find_rightmost_edge, get_edges_from_node, get_other_node, findNode,
    turnGt, turnSector, cross2, dot2, dirOf, atanPos,
    List.find?, List.foldl, List.filterMap]

/-- Both raw rectangle faces have area `20`. -/
theorem area_rectCycles :
    polygon_area [((5 : ℚ), (0 : ℚ)), (5, 4), (0, 4), (0, 0)] = 20 ∧
    polygon_area [((0 : ℚ), (0 : ℚ)), (0, 4), (5, 4), (5, 0)] = 20 := by
  constructor <;> norm_num [polygon_area, shoelace]

/-- The survivors of the area filter on the rectangle at `min_area = 0.5`:
both raw faces. -/
theorem survivors_gRect :
    survivors gRect (1/2) = [ [(5, 0), (5, 4), (0, 4), (0, 0)],
                              [(0, 0), (0, 4), (5, 4), (5, 0)] ] := by
  rw [survivors, rawCycles_gRect]
  norm_num [polygon_area, shoelace, List.filter]

/-- `find_cycles` on the rectangle, evaluated. -/
theorem find_cycles_gRect :
    find_cycles gRect (1/2) = [ [(0, 0), (0, 4), (5, 4), (5, 0)] ] := by
  simp only [find_cycles, survivors_gRect]
  norm_num [gRect_eq, remove_outer_boundary, findMaxAreaIdx, polygon_area, shoelace]

/-- The collinear graph, evaluated. -/
theorem gCol_eq : gCol =
    { snap_tolerance := 1/20,
      nodes := [ { id := 0, position := (0, 0), edge_ids := [0, 2] },
                 { id := 1, position := (1, 0), edge_ids := [0, 1] },
                 { id := 2, position := (2, 0), edge_ids := [1, 2] } ],
      edges := [ { id := 0, node_ids := (0, 1), wall_id := 1 },
                 { id := 1, node_ids := (1, 2), wall_id := 2 },
                 { id := 2, node_ids := (0, 2), wall_id := 3 } ],
      edge_set := [(0, 1), (1, 2), (0, 2)],
      node_count := 3, edge_count := 3 } := by
  norm_num [gCol, colWalls, mkWallGraph, add_walls, add_wall, wallSegments,
    add_segment, get_or_create_node, find_node_near, findNode, distSq,
    sortPair, pushEdgeId, List.filter, List.foldl, List.find?]

/-- Both traversal orientations of the collinear graph close into a
zero-area "cycle" through all three nodes. -/
theorem rawCycles_gCol :
    rawCycles gCol = [ [(1, 0), (2, 0), (0, 0)],
                       [(0, 0), (2, 0), (1, 0)] ] := by
  norm_num [rawCycles, gCol_eq, findCyclesAux, traceFrom, trace_cycle, traceAux,
    find_rightmost_edge, get_edges_from_node, get_other_node, findNode,
    turnGt, turnSector, cross2, dot2, dirOf, atanPos,
    List.find?, List.foldl, List.filterMap]

/-- With `min_area = 0`, both zero-area collinear cycles survive the
filter. -/
theorem survivors_gCol :
    survivors gCol 0 = [ [(1, 0), (2, 0), (0, 0)],
                         [(0, 0), (2, 0), (1, 0)] ] := by
  rw [survivors, rawCycles_gCol]
  norm_num [polygon_area, shoelace, List.filter]

/-- `find_cycles` on the collinear graph with `min_area = 0`: both cycles
are returned — no cycle has positive area, so `_remove_outer_boundary`
removes nothing. -/
theorem find_cycles_gCol :
    find_cycles gCol 0 = [ [(1, 0), (2, 0), (0, 0)],
                           [(0, 0), (2, 0), (1, 0)] ] := by
  simp only [find_cycles, survivors_gCol]
  norm_num [gCol_eq, remove_outer_boundary, findMaxAreaIdx, polygon_area, shoelace]

/-! ## Claim theorems -/

/-- Claim C1: for the `WallGraph` built from the four walls of an
axis-aligned 5×4 rectangle at the origin, `find_cycles` with the default
`min_area = 0.5` returns exactly one cycle, that cycle has 4 vertices, and
its polygon area is exactly `20`; the traversal first produced two raw
faces (one per orientation), reduced to one by the outer-boundary removal. -/
theorem c1_rectangle_single_cycle :
    (rawCycles gRect).length = 2 ∧
    ∃ c, find_cycles gRect (1/2) = [c] ∧ c.length = 4 ∧ polygon_area c = 20 := by
  refine ⟨by rw [rawCycles_gRect]; rfl,
    [(0, 0), (0, 4), (5, 4), (5, 0)], find_cycles_gRect, rfl, area_rectCycles.2⟩

/-- Counterexample to claim C2 as stated: in the collinear graph `gCol`
with `min_area = 0`, two cycles (both of area `0`) survive the area filter,
yet `find_cycles` returns both of them — `_remove_outer_boundary` starts its
scan at `max_area = 0.0` with a strict comparison, so when no surviving
cycle has positive area `max_index` stays `-1` and nothing is removed. -/
theorem c2_zero_area_counterexample :
    1 < (survivors gCol 0).length ∧
    (find_cycles gCol 0).length ≠ (survivors gCol 0).length - 1 := by
  rw [survivors_gCol, find_cycles_gCol]
  exact ⟨by norm_num, by norm_num⟩

/-- Claim C7: on a context with fixtures `["toilet", "sink"]` whose nearby
text contains `"KITCHEN"`, `classify` returns room type `"bathroom"`
(confidence `0.75`): the fixture tier is evaluated first and the text tier
is never consulted — the result is the same for every `nearby_text` list
and every AI collaborator. -/
theorem c7_fixture_tier_priority (ai : Option AIService) (poly : List Point)
    (area aspect : ℚ) (dc wc : Nat) (nt adj : List String)
    (hkitchen : "KITCHEN" ∈ nt) :
    classify ai
      { polygon := poly, area := area, aspect_ratio := aspect,
        door_count := dc, window_count := wc,
        fixtures := [ "toilet", "sink" ], nearby_text := nt,
        adjacent_rooms := adj } =
      { room_type := "bathroom", confidence := 0.75,
        reasoning := "Detected from fixtures: toilet, sink" } := by
  rfl

/-- Witness for C7 at `nearby_text = ["KITCHEN"]`. -/
theorem c7_fixture_tier_priority_witness :
    classify none
      { polygon := [], area := 10, aspect_ratio := 1,
        door_count := 0, window_count := 0,
        fixtures := [ "toilet", "sink" ], nearby_text := [ "KITCHEN" ],
        adjacent_rooms := [] } =
      { room_type := "bathroom", confidence := 0.75,
        reasoning := "Detected from fixtures: toilet, sink" } :=
  c7_fixture_tier_priority none [] 10 1 0 0 [ "KITCHEN" ] []
    (List.mem_singleton.mpr rfl)

/-! ## The graph well-formedness invariant (C4) -/

/-- Fold invariant: a property preserved by every step of a left fold holds
of the result. -/
theorem foldl_mem_invariant {α β : Type _} (P : β → Prop) (f : β → α → β) :
    ∀ (l : List α) (b : β), (∀ b' a, a ∈ l → P b' → P (f b' a)) → P b →
      P (l.foldl f b)
  | [], _, _, hb => hb
  | a :: t, b, hstep, hb =>
      foldl_mem_invariant P f t (f b a)
        (fun b' a' ha' hb' => hstep b' a' (List.mem_cons_of_mem _ ha') hb')
        (hstep b a (List.mem_cons_self _ _) hb)

/-- Appending an edge id to one node's list does not change the node ids. -/
theorem pushEdgeId_map_id (ns : List GraphNode) (a e : Nat) :
    (pushEdgeId ns a e).map GraphNode.id = ns.map GraphNode.id := by
  induction ns with
  | nil => rfl
  | cons x t ih =>
    simp only [pushEdgeId, List.map_cons] at ih ⊢
    split <;> simp [ih]

/-- A left fold whose step either keeps the accumulator or selects the
current element can only produce the initial value or a selected element. -/
theorem foldl_option_pick {α β : Type _} (f : Option β → α → Option β)
    (sel : α → β) (hf : ∀ b a, f b a = b ∨ f b a = some (sel a)) :
    ∀ (l : List α) (b : Option β) (y : β), l.foldl f b = some y →
      b = some y ∨ ∃ a ∈ l, sel a = y := by
  intro l
  induction l with
  | nil => intro b y h; exact Or.inl h
  | cons a t ih =>
    intro b y h
    rcases ih (f b a) y h with h1 | ⟨a', ha', hsel⟩
    · rcases hf b a with h2 | h2
      · exact Or.inl (h2 ▸ h1)
      · refine Or.inr ⟨a, List.mem_cons_self _ _, ?_⟩
        rw [h2] at h1
        exact (Option.some_inj.mp h1)
    · exact Or.inr ⟨a', List.mem_cons_of_mem _ ha', hsel⟩

/-- A node found by `find_node_near` is one of the graph's nodes. -/
theorem find_node_near_mem {g : WallGraph} {p : Point} {tol : ℚ}
    {n : GraphNode} (h : find_node_near g p tol = some n) : n ∈ g.nodes := by
  simp only [find_node_near, Option.map_eq_some'] at h
  obtain ⟨x, hx, hx1⟩ := h
  subst hx1
  have hpick := foldl_option_pick
    (fun (best : Option (GraphNode × ℚ)) (n : GraphNode) =>
      if 0 ≤ tol ∧ distSq p n.position ≤ tol ^ 2 then
        match best with
        | none => some (n, distSq p n.position)
        | some (_, bd2) =>
            if distSq p n.position < bd2 then some (n, distSq p n.position) else best
      else best)
    (fun n => (n, distSq p n.position))
    (by
      intro b a
      dsimp only
      by_cases hc : 0 ≤ tol ∧ distSq p a.position ≤ tol ^ 2
      · rw [if_pos hc]
        cases b with
        | none => exact Or.inr rfl
        | some bv =>
          obtain ⟨b1, b2⟩ := bv
          dsimp only
          by_cases hd : distSq p a.position < b2
          · rw [if_pos hd]; exact Or.inr rfl
          · rw [if_neg hd]; exact Or.inl rfl
      · rw [if_neg hc]; exact Or.inl rfl)
  rcases hpick _ none x hx with h1 | ⟨a, ha, hsel⟩
  · cases h1
  · have : a = x.1 := by rw [← hsel]
    subst this
    exact (List.mem_filter.mp ha).1

/-- `_get_or_create_node` leaves every field but `nodes`/`node_count`
unchanged. -/
theorem get_or_create_fields (g : WallGraph) (p : Point) :
    (get_or_create_node g p).1.edges = g.edges ∧
    (get_or_create_node g p).1.edge_set = g.edge_set ∧
    (get_or_create_node g p).1.edge_count = g.edge_count ∧
    (get_or_create_node g p).1.snap_tolerance = g.snap_tolerance := by
  rw [get_or_create_node]
  split <;> exact ⟨rfl, rfl, rfl, rfl⟩

/-- The id of the node returned by `_get_or_create_node` is in the node map
of the returned graph. -/
theorem get_or_create_id_mem (g : WallGraph) (p : Point) :
    (get_or_create_node g p).2.id ∈
      (get_or_create_node g p).1.nodes.map GraphNode.id := by
  rw [get_or_create_node]
  split
  · next n hn => exact List.mem_map_of_mem _ (find_node_near_mem hn)
  · simp

/-- `_get_or_create_node` only appends nodes: existing node ids persist. -/
theorem get_or_create_id_mono (g : WallGraph) (p : Point) {i : Nat}
    (h : i ∈ g.nodes.map GraphNode.id) :
    i ∈ (get_or_create_node g p).1.nodes.map GraphNode.id := by
  rw [get_or_create_node]
  split
  · exact h
  · simp only [List.map_append, List.mem_append]
    exact Or.inl h

/-- `_get_or_create_node` preserves the invariant. -/
theorem ginv_get_or_create {g : WallGraph} (h : GInv g) (p : Point) :
    GInv (get_or_create_node g p).1 := by
  rw [get_or_create_node]
  split
  · exact h
  · refine ⟨?_, ?_, h.edges_nodup, h.edges_lt, h.ends_distinct, ?_, h.keyset, h.keys_nodup⟩
    · simp only [List.map_append, List.map_cons, List.map_nil]
      rw [List.nodup_append]
      refine ⟨h.nodes_nodup, List.nodup_singleton _, ?_⟩
      intro i hi hmem
      simp only [List.mem_singleton] at hmem
      subst hmem
      obtain ⟨m, hm, hmi⟩ := List.mem_map.mp hi
      exact absurd (hmi ▸ h.nodes_lt m hm) (lt_irrefl _)
    · intro m hm
      simp only [List.mem_append, List.mem_singleton] at hm
      rcases hm with hm | hm
      · exact Nat.lt_succ_of_lt (h.nodes_lt m hm)
      · subst hm; exact Nat.lt_succ_self _
    · intro e he
      obtain ⟨h1, h2⟩ := h.ends_exist e he
      simp only [List.map_append, List.mem_append]
      exact ⟨Or.inl h1, Or.inl h2⟩

/-- Node ids below the bound, transported through `pushEdgeId`. -/
theorem pushEdgeId_lt {ns : List GraphNode} {c : Nat}
    (h : ∀ n ∈ ns, n.id < c) (a e : Nat) :
    ∀ n ∈ pushEdgeId ns a e, n.id < c := by
  intro n hn
  obtain ⟨m, hm, hmn⟩ := List.mem_map.mp hn
  subst hmn
  split <;> exact h m hm

/-- `_add_segment` preserves the invariant. -/
theorem ginv_add_segment {g : WallGraph} (h : GInv g) (p q : Point) (w : Nat) :
    GInv (add_segment g p q w) := by
  have h1 : GInv (get_or_create_node g p).1 := ginv_get_or_create h p
  have h2 : GInv (get_or_create_node (get_or_create_node g p).1 q).1 :=
    ginv_get_or_create h1 q
  simp only [add_segment]
  split
  · exact h2
  · next hne =>
    split
    · exact h2
    · next hkey =>
      set ga := (get_or_create_node g p).1 with hga
      set na := (get_or_create_node g p).2 with hna
      set gb := (get_or_create_node ga q).1 with hgb
      set nb := (get_or_create_node ga q).2 with hnb
      have hma : na.id ∈ gb.nodes.map GraphNode.id :=
        get_or_create_id_mono ga q (get_or_create_id_mem g p)
      have hmb : nb.id ∈ gb.nodes.map GraphNode.id := get_or_create_id_mem ga q
      refine ⟨?_, ?_, ?_, ?_, ?_, ?_, ?_, ?_⟩
      · rw [pushEdgeId_map_id, pushEdgeId_map_id]
        exact h2.nodes_nodup
      · intro n hn
        exact pushEdgeId_lt (pushEdgeId_lt h2.nodes_lt _ _) _ _ n hn
      · simp only [List.map_append, List.map_cons, List.map_nil]
        rw [List.nodup_append]
        refine ⟨h2.edges_nodup, List.nodup_singleton _, ?_⟩
        intro i hi hmem
        simp only [List.mem_singleton] at hmem
        subst hmem
        obtain ⟨m, hm, hmi⟩ := List.mem_map.mp hi
        exact absurd (hmi ▸ h2.edges_lt m hm) (lt_irrefl _)
      · intro e he
        simp only [List.mem_append, List.mem_singleton] at he
        rcases he with he | he
        · exact Nat.lt_succ_of_lt (h2.edges_lt e he)
        · subst he; exact Nat.lt_succ_self _
      · intro e he
        simp only [List.mem_append, List.mem_singleton] at he
        rcases he with he | he
        · exact h2.ends_distinct e he
        · subst he; exact hne
      · intro e he
        simp only [pushEdgeId_map_id]
        simp only [List.mem_append, List.mem_singleton] at he
        rcases he with he | he
        · exact h2.ends_exist e he
        · subst he; exact ⟨hma, hmb⟩
      · simp only [List.map_append, List.map_cons, List.map_nil, h2.keyset]
      · rw [List.nodup_append]
        refine ⟨h2.keys_nodup, List.nodup_singleton _, ?_⟩
        intro k hk hmem
        simp only [List.mem_singleton] at hmem
        subst hmem
        exact hkey hk

/-- `add_wall` preserves the invariant. -/
theorem ginv_add_wall {g : WallGraph} (h : GInv g) (w : Wall) :
    GInv (add_wall g w) := by
  rw [add_wall]
  split
  · exact h
  · exact foldl_mem_invariant GInv _ _ g
      (fun g' s _ hg' => ginv_add_segment hg' s.1 s.2 w.id) h

/-- The empty graph satisfies the invariant. -/
theorem ginv_mk (tol : ℚ) : GInv (mkWallGraph tol) := by
  refine ⟨?_, ?_, ?_, ?_, ?_, ?_, ?_, ?_⟩ <;> simp [mkWallGraph]

/-- Any graph built by a sequence of `add_wall` calls satisfies the
invariant. -/
theorem ginv_built (tol : ℚ) (ws : List Wall) :
    GInv (add_walls (mkWallGraph tol) ws) :=
  foldl_mem_invariant GInv _ _ _ (fun g' w _ hg' => ginv_add_wall hg' w)
    (ginv_mk tol)

/-- A segment whose two endpoints resolve to the same node adds no edge
(the graph may still have grown by the resolved nodes). -/
theorem add_segment_drop_degenerate (g : WallGraph) (p q : Point) (w : Nat)
    (h : (get_or_create_node g p).2.id =
      (get_or_create_node (get_or_create_node g p).1 q).2.id) :
    (add_segment g p q w).edges = g.edges := by
  simp only [add_segment]
  rw [if_pos h]
  exact ((get_or_create_fields _ q).1).trans (get_or_create_fields g p).1

/-- A segment whose resolved undirected node pair already has an edge adds
no edge. -/
theorem add_segment_drop_duplicate (g : WallGraph) (p q : Point) (w : Nat)
    (h : sortPair (get_or_create_node g p).2.id
        (get_or_create_node (get_or_create_node g p).1 q).2.id ∈
      (get_or_create_node (get_or_create_node g p).1 q).1.edge_set) :
    (add_segment g p q w).edges = g.edges := by
  simp only [add_segment, if_pos h]
  split
  · exact ((get_or_create_fields _ q).1).trans (get_or_create_fields g p).1
  · exact ((get_or_create_fields _ q).1).trans (get_or_create_fields g p).1

/-- The single-wall graph, evaluated. -/
theorem gSingle_eq : gSingle =
    { snap_tolerance := 1/20,
      nodes := [ { id := 0, position := (0, 0), edge_ids := [0] },
                 { id := 1, position := (1, 0), edge_ids := [0] } ],
      edges := [ { id := 0, node_ids := (0, 1), wall_id := 1 } ],
      edge_set := [(0, 1)],
      node_count := 2, edge_count := 1 } := by
  norm_num [gSingle, mkWallGraph, add_walls, add_wall, wallSegments,
    add_segment, get_or_create_node, find_node_near, findNode, distSq,
    sortPair, pushEdgeId, List.filter, List.foldl, List.find?]

/-- Claim C4: after any sequence of `add_wall` calls starting from a fresh
`WallGraph`, every edge references two distinct node ids that both exist in
the node map and the undirected edge keys are pairwise distinct; moreover a
segment whose endpoints resolve to the same node adds no edge, and a
segment whose resolved unordered pair already has an edge adds no edge
(for every graph state, not only reachable ones). -/
theorem c4_edge_invariant (tol : ℚ) (ws : List Wall) :
    (∀ e ∈ (add_walls (mkWallGraph tol) ws).edges,
        e.node_ids.1 ≠ e.node_ids.2 ∧
        e.node_ids.1 ∈ (add_walls (mkWallGraph tol) ws).nodes.map GraphNode.id ∧
        e.node_ids.2 ∈ (add_walls (mkWallGraph tol) ws).nodes.map GraphNode.id) ∧
    ((add_walls (mkWallGraph tol) ws).edges.map
        (fun e => sortPair e.node_ids.1 e.node_ids.2)).Nodup ∧
    (∀ (g : WallGraph) (p q : Point) (w : Nat),
        (get_or_create_node g p).2.id =
          (get_or_create_node (get_or_create_node g p).1 q).2.id →
        (add_segment g p q w).edges = g.edges) ∧
    (∀ (g : WallGraph) (p q : Point) (w : Nat),
        sortPair (get_or_create_node g p).2.id
            (get_or_create_node (get_or_create_node g p).1 q).2.id ∈
          (get_or_create_node (get_or_create_node g p).1 q).1.edge_set →
        (add_segment g p q w).edges = g.edges) := by
  have h := ginv_built tol ws
  refine ⟨?_, ?_, add_segment_drop_degenerate, add_segment_drop_duplicate⟩
  · intro e he
    exact ⟨h.ends_distinct e he, (h.ends_exist e he).1, (h.ends_exist e he).2⟩
  · rw [← h.keyset]
    exact h.keys_nodup

/-- Witness for C4: on the single-wall graph, re-adding the degenerate
segment `(0,0)–(0,0)` and the duplicate segment `(0,0)–(1,0)` both leave
the edge list unchanged. -/
theorem c4_edge_invariant_witness :
    (add_segment gSingle (0, 0) (0, 0) 9).edges = gSingle.edges ∧
    (add_segment gSingle (0, 0) (1, 0) 9).edges = gSingle.edges := by
  have h := c4_edge_invariant (1/20) [ { id := 1, points := [(0, 0), (1, 0)] } ]
  constructor
  · refine h.2.2.1 gSingle (0, 0) (0, 0) 9 ?_
    norm_num [gSingle_eq, get_or_create_node, find_node_near, findNode,
      distSq, List.filter, List.foldl]
  · refine h.2.2.2 gSingle (0, 0) (1, 0) 9 ?_
    norm_num [gSingle_eq, get_or_create_node, find_node_near, findNode,
      distSq, sortPair, List.filter, List.foldl]

/-- Each loop iteration of `_trace_cycle` appends exactly one node, so a
successful trace with `fuel` remaining iterations returns at most
`|accumulated| + fuel` nodes. -/
theorem traceAux_some_length (g : WallGraph) (used : List DirectedKey) (target : Nat) :
    ∀ (fuel : Nat) (ce : GraphEdge) (fn : Nat) (cn : GraphNode)
      (ns : List Nat) (ks : List DirectedKey) (res : List Nat × List DirectedKey),
      traceAux g used target fuel ce fn cn ns ks = some res →
      res.1.length ≤ ns.length + fuel := by
  intro fuel
  induction fuel with
  | zero =>
    intro ce fn cn ns ks res h
    simp [traceAux] at h
  | succ n ih =>
    intro ce fn cn ns ks res h
    simp only [traceAux] at h
    split at h
    · exact absurd h (by simp)
    · split at h
      · injection h with h2
        subst h2
        simp only [List.length_append, List.length_singleton]
        omega
      · split at h
        · exact absurd h (by simp)
        · split at h
          · exact absurd h (by simp)
          · split at h
            · exact absurd h (by simp)
            · have := ih _ _ _ _ _ _ h
              simp only [List.length_append, List.length_singleton] at this
              omega

/-- Claim C5: every successful cycle-tracing attempt returns within the
`2 * edge_count + 10` iteration budget — the traced vertex list has at most
that many entries (one node is appended per loop iteration); an attempt
that has not closed within the budget runs the fuel out and produces
`none` by definition of `traceAux`. -/
theorem c5_trace_iteration_bound (g : WallGraph) (used : List DirectedKey)
    (start_edge : GraphEdge) (start_from : Nat) (res : List Point × List DirectedKey)
    (h : trace_cycle g used start_edge start_from = some res) :
    res.1.length ≤ 2 * g.edges.length + 10 := by
  rw [trace_cycle] at h
  split at h
  · exact absurd h (by simp)
  · split at h
    · exact absurd h (by simp)
    · split at h
      · exact absurd h (by simp)
      · next cns ks heq =>
        rw [Option.some_inj] at h
        subst h
        calc (cns.filterMap fun nid => (findNode g nid).map GraphNode.position).length
            ≤ cns.length := List.length_filterMap_le _ _
          _ ≤ 0 + (2 * g.edges.length + 10) :=
              traceAux_some_length g used start_from _ _ _ _ _ _ _ heq
          _ = 2 * g.edges.length + 10 := by omega

/-- The first trace attempt on the rectangle, evaluated (used by the C5
witness). -/
theorem trace_cycle_gRect :
    trace_cycle gRect [] { id := 0, node_ids := (0, 1), wall_id := 1 } 0 =
      some ([(5, 0), (5, 4), (0, 4), (0, 0)], [(0, 0), (1, 1), (2, 2), (3, 3)]) := by
  norm_num [trace_cycle, gRect_eq, traceAux,
    find_rightmost_edge, get_edges_from_node, get_other_node, findNode,
    turnGt, turnSector, cross2, dot2, dirOf, atanPos,
    List.find?, List.foldl, List.filterMap]

/-- Witness for C5: the successful rectangle trace returns 4 vertices,
within the budget `2 * 4 + 10`. -/
theorem c5_trace_iteration_bound_witness :
    ([((5 : ℚ), (0 : ℚ)), (5, 4), (0, 4), (0, 0)],
      ([(0, 0), (1, 1), (2, 2), (3, 3)] : List DirectedKey)).1.length ≤
      2 * gRect.edges.length + 10 :=
  c5_trace_iteration_bound gRect [] { id := 0, node_ids := (0, 1), wall_id := 1 } 0
    _ trace_cycle_gRect

/-- Claim C9: `find_cycles` is a pure query — as a state transformer it
leaves `nodes`, `edges` and `edge_set` unchanged, and a second call on the
post-state graph returns the same list of polygons (hence the same set). -/
theorem c9_find_cycles_pure (g : WallGraph) (min_area : ℚ) :
    (find_cycles_st ((find_cycles_st g min_area).2) min_area).1 =
        (find_cycles_st g min_area).1 ∧
    ((find_cycles_st g min_area).2).nodes = g.nodes ∧
    ((find_cycles_st g min_area).2).edges = g.edges ∧
    ((find_cycles_st g min_area).2).edge_set = g.edge_set :=
  ⟨rfl, rfl, rfl, rfl⟩

/-! ## Outer-boundary removal (C2) -/

/-- The `_remove_outer_boundary` index scan, characterized: either nothing
beat the running maximum (and every area is bounded by it), or the scan
returns the position and area of a strictly improving maximal cycle. -/
theorem findMaxAreaIdx_spec :
    ∀ (l : List (List Point)) (i : Nat) (ma : ℚ) (mi : Int),
      (findMaxAreaIdx l i ma mi = (ma, mi) ∧ ∀ c ∈ l, polygon_area c ≤ ma) ∨
      (∃ j, ∃ hj : j < l.length,
        (findMaxAreaIdx l i ma mi).1 = polygon_area (l.get ⟨j, hj⟩) ∧
        (findMaxAreaIdx l i ma mi).2 = (i : Int) + j ∧
        ma < (findMaxAreaIdx l i ma mi).1 ∧
        ∀ c ∈ l, polygon_area c ≤ (findMaxAreaIdx l i ma mi).1) := by
  intro l
  induction l with
  | nil =>
    intro i ma mi
    exact Or.inl ⟨rfl, fun c hc => absurd hc (List.not_mem_nil c)⟩
  | cons c t ih =>
    intro i ma mi
    by_cases hlt : ma < polygon_area c
    · have hstep : findMaxAreaIdx (c :: t) i ma mi =
          findMaxAreaIdx t (i + 1) (polygon_area c) i := by
        rw [findMaxAreaIdx, if_pos hlt]
      rcases ih (i + 1) (polygon_area c) (i : Int) with ⟨heq, hall⟩ | ⟨j, hj, h1, h2, h3, h4⟩
      · refine Or.inr ⟨0, by simp, ?_, ?_, ?_, ?_⟩
        · rw [hstep, heq]; rfl
        · rw [hstep, heq]; simp
        · rw [hstep, heq]; exact hlt
        · intro d hd
          rw [hstep, heq]
          rcases List.mem_cons.mp hd with hd | hd
          · rw [hd]
          · exact hall d hd
      · refine Or.inr ⟨j + 1, by simpa using Nat.succ_lt_succ hj, ?_, ?_, ?_, ?_⟩
        · rw [hstep, h1]; rfl
        · rw [hstep, h2]; push_cast; ring
        · rw [hstep]; exact lt_trans hlt h3
        · intro d hd
          rw [hstep]
          rcases List.mem_cons.mp hd with hd | hd
          · rw [hd]; exact le_of_lt h3
          · exact h4 d hd
    · have hstep : findMaxAreaIdx (c :: t) i ma mi =
          findMaxAreaIdx t (i + 1) ma mi := by
        rw [findMaxAreaIdx, if_neg hlt]
      rcases ih (i + 1) ma mi with ⟨heq, hall⟩ | ⟨j, hj, h1, h2, h3, h4⟩
      · refine Or.inl ⟨by rw [hstep, heq], ?_⟩
        intro d hd
        rcases List.mem_cons.mp hd with hd | hd
        · rw [hd]; exact le_of_not_lt hlt
        · exact hall d hd
      · refine Or.inr ⟨j + 1, by simpa using Nat.succ_lt_succ hj, ?_, ?_, ?_, ?_⟩
        · rw [hstep, h1]; rfl
        · rw [hstep, h2]; push_cast; ring
        · rw [hstep]; exact h3
        · intro d hd
          rw [hstep]
          rcases List.mem_cons.mp hd with hd | hd
          · rw [hd]; exact le_trans (le_of_not_lt hlt) (le_of_lt h3)
          · exact h4 d hd

/-- `_remove_outer_boundary` on a multi-cycle list containing a
positive-area cycle removes exactly one cycle, of maximal area. -/
theorem remove_outer_boundary_spec (cycles : List (List Point))
    (h1 : 1 < cycles.length) (h2 : ∃ c ∈ cycles, 0 < polygon_area c) :
    ∃ j, ∃ hj : j < cycles.length,
      remove_outer_boundary cycles = cycles.take j ++ cycles.drop (j + 1) ∧
      (∀ c ∈ cycles, polygon_area c ≤ polygon_area (cycles.get ⟨j, hj⟩)) ∧
      (remove_outer_boundary cycles).length = cycles.length - 1 := by
  rcases findMaxAreaIdx_spec cycles 0 0 (-1) with ⟨_, hall⟩ | ⟨j, hj, hv, hi, _, hbound⟩
  · obtain ⟨c, hc, hpos⟩ := h2
    exact absurd (hall c hc) (not_le.mpr hpos)
  · have hout : remove_outer_boundary cycles =
        cycles.take j ++ cycles.drop (j + 1) := by
      simp only [remove_outer_boundary]
      rw [if_neg (by omega), hi, if_pos (by positivity)]
      congr 1 <;> simp
    refine ⟨j, hj, hout, ?_, ?_⟩
    · intro c hc
      rw [← hv]
      exact hbound c hc
    · rw [hout]
      rw [List.length_append, List.length_take, List.length_drop]
      omega

/-- Claim C2 (amended): for every `WallGraph` and every `min_area`, if more
than one cycle survives the area filter *and at least one survivor has
positive area*, then `find_cycles` returns exactly the survivor count minus
one, dropping a survivor of maximal polygon area; if exactly one survives,
it is returned unchanged.  (The positivity proviso is forced by the
counterexample: when every survivor has zero area the scan of
`_remove_outer_boundary` never fires and all survivors are returned.) -/
theorem c2_outer_boundary_removed (g : WallGraph) (min_area : ℚ) :
    (1 < (survivors g min_area).length →
      (∃ c ∈ survivors g min_area, 0 < polygon_area c) →
      (find_cycles g min_area).length = (survivors g min_area).length - 1 ∧
      ∃ j, ∃ hj : j < (survivors g min_area).length,
        find_cycles g min_area =
          (survivors g min_area).take j ++ (survivors g min_area).drop (j + 1) ∧
        ∀ c ∈ survivors g min_area,
          polygon_area c ≤ polygon_area ((survivors g min_area).get ⟨j, hj⟩)) ∧
    ((survivors g min_area).length = 1 → find_cycles g min_area = survivors g min_area) := by
  have hfc : find_cycles g min_area =
      if 1 < (survivors g min_area).length then remove_outer_boundary (survivors g min_area)
      else survivors g min_area := by
    rw [find_cycles]
    split
    · next hz =>
      have hraw : survivors g min_area = [] := by
        rw [survivors, rawCycles, List.length_eq_zero.mp hz]
        rfl
      rw [hraw]
      simp
    · rfl
  constructor
  · intro h1 h2
    obtain ⟨j, hj, hout, hmax, hlen⟩ := remove_outer_boundary_spec _ h1 h2
    rw [hfc, if_pos h1]
    exact ⟨hlen, j, hj, hout, hmax⟩
  · intro h1
    rw [hfc, if_neg (by omega)]

/-- Witness for C2 at the rectangle with `min_area = 0.5`: two survivors,
the first has positive area, and `find_cycles` returns one cycle. -/
theorem c2_outer_boundary_removed_witness :
    (find_cycles gRect (1/2)).length = (survivors gRect (1/2)).length - 1 := by
  refine ((c2_outer_boundary_removed gRect (1/2)).1 ?_ ?_).1
  · rw [survivors_gRect]
    norm_num
  · refine ⟨[(5, 0), (5, 4), (0, 4), (0, 0)], ?_, ?_⟩
    · rw [survivors_gRect]
      exact List.mem_cons_self _ _
    · rw [area_rectCycles.1]
      norm_num

/-! ## Classifier score dictionaries (C6, C8, C10) -/

/-- `scGet` of a pair present in a key-nodup association list. -/
theorem scGet_of_mem_nodup {β : Type} {l : List (String × β)}
    (hn : (l.map Prod.fst).Nodup) {k : String} {v : β} (h : (k, v) ∈ l) :
    scGet l k = some v := by
  induction l with
  | nil => cases h
  | cons p t ih =>
    rcases List.mem_cons.mp h with h' | h'
    · subst h'
      simp [scGet, List.find?]
    · have hk : k ∈ t.map Prod.fst := by
        exact List.mem_map.mpr ⟨(k, v), h', rfl⟩
      have hp : p.1 ≠ k := by
        intro he
        rw [List.map_cons, List.nodup_cons] at hn
        exact hn.1 (he ▸ hk)
      simp only [scGet, List.find?, decide_eq_false hp]
      exact ih ((List.map_cons _ _ _ ▸ hn : (p.1 :: t.map Prod.fst).Nodup).of_cons) h'

/-- A successful `scGet` exhibits a member pair. -/
theorem scGet_mem {β : Type} {l : List (String × β)} {k : String} {v : β}
    (h : scGet l k = some v) : (k, v) ∈ l := by
  obtain ⟨pair, hfind, hmap⟩ := Option.map_eq_some'.mp h
  have h1 : pair.1 = k := by
    have := List.find?_some hfind
    simpa using this
  have h2 := List.mem_of_find?_eq_some hfind
  obtain ⟨a, b⟩ := pair
  simp only at h1 hmap
  subst h1
  subst hmap
  exact h2

/-- `upsertAdd` at the written key: value is the old value (default 0)
plus one. -/
theorem upsertAdd_same (l : List (String × Nat)) (k : String) :
    scGet (upsertAdd l k) k = some ((scGet l k).getD 0 + 1) := by
  induction l with
  | nil => simp [upsertAdd, scGet]
  | cons p t ih =>
    by_cases hp : p.1 = k
    · have hany : (p :: t).any (fun q => q.1 = k) = true := by
        simp [List.any_cons, hp]
      simp [upsertAdd, hany, scGet, List.find?, hp]
    · have hstep : upsertAdd (p :: t) k = p :: upsertAdd t k := by
        by_cases ht : t.any (fun q => q.1 = k)
        · simp [upsertAdd, List.any_cons, hp, ht]
        · simp [upsertAdd, List.any_cons, hp, ht]
      rw [hstep]
      simp only [scGet, List.find?, decide_eq_false hp]
      exact ih

/-- `scGet` through a map that keeps every key and fixes the pairs at the
queried key. -/
theorem scGet_map_preserve {β : Type} (f : String × β → String × β) (k' : String)
    (hf : ∀ p, (f p).1 = p.1) (hk : ∀ p, p.1 = k' → f p = p) :
    ∀ l : List (String × β), scGet (l.map f) k' = scGet l k' := by
  intro l
  induction l with
  | nil => rfl
  | cons q t ih =>
    by_cases hq : q.1 = k'
    · rw [List.map_cons, hk q hq]
      simp [scGet, List.find?, hq]
    · have hfq : (f q).1 ≠ k' := by rw [hf q]; exact hq
      simp only [List.map_cons, scGet, List.find?, decide_eq_false hfq,
        decide_eq_false hq]
      exact ih

/-- `upsertAdd` leaves other keys unchanged. -/
theorem upsertAdd_other (l : List (String × Nat)) (k k' : String) (hne : k' ≠ k) :
    scGet (upsertAdd l k) k' = scGet l k' := by
  rw [upsertAdd]
  split
  · refine scGet_map_preserve _ k' (fun p => ?_) (fun p hp => ?_) l
    · split <;> rfl
    · rw [if_neg (fun he => hne (hp.symm.trans he))]
  · rw [scGet, scGet, List.find?_append]
    have : List.find? (fun p => p.1 = k') [(k, 1)] = none := by
      simp [List.find?, Ne.symm hne]
    rw [this, Option.or_none]

/-- `upsertMax` at the written key: value is the max of the old value
(default 0) and the new score. -/
theorem upsertMax_same (l : List (String × ℚ)) (k : String) (v : ℚ) :
    scGet (upsertMax l k v) k = some (max ((scGet l k).getD 0) v) := by
  induction l with
  | nil => simp [upsertMax, scGet]
  | cons p t ih =>
    by_cases hp : p.1 = k
    · have hany : (p :: t).any (fun q => q.1 = k) = true := by
        simp [List.any_cons, hp]
      simp [upsertMax, hany, scGet, List.find?, hp]
    · have hstep : upsertMax (p :: t) k v = p :: upsertMax t k v := by
        by_cases ht : t.any (fun q => q.1 = k)
        · simp [upsertMax, List.any_cons, hp, ht]
        · simp [upsertMax, List.any_cons, hp, ht]
      rw [hstep]
      simp only [scGet, List.find?, decide_eq_false hp]
      exact ih

/-- `upsertMax` leaves other keys unchanged. -/
theorem upsertMax_other (l : List (String × ℚ)) (k k' : String) (v : ℚ)
    (hne : k' ≠ k) : scGet (upsertMax l k v) k' = scGet l k' := by
  rw [upsertMax]
  split
  · refine scGet_map_preserve _ k' (fun p => ?_) (fun p hp => ?_) l
    · split <;> rfl
    · rw [if_neg (fun he => hne (hp.symm.trans he))]
  · rw [scGet, scGet, List.find?_append]
    have : List.find? (fun p => p.1 = k') [(k, max 0 v)] = none := by
      simp [List.find?, Ne.symm hne]
    rw [this, Option.or_none]

/-- The fold inside `maxKeyPair` returns a member of the list that is at
least every element seen, and at least the initial pair. -/
theorem maxKeyPair_fold_spec {β : Type} [LinearOrder β] :
    ∀ (rest : List (String × β)) (p : String × β),
      (rest.foldl (fun best q => if best.2 < q.2 then q else best) p) ∈ p :: rest ∧
      p.2 ≤ (rest.foldl (fun best q => if best.2 < q.2 then q else best) p).2 ∧
      ∀ q ∈ rest, q.2 ≤ (rest.foldl (fun best q => if best.2 < q.2 then q else best) p).2 := by
  intro rest
  induction rest with
  | nil => exact fun p => ⟨List.mem_cons_self _ _, le_refl _, fun q hq => absurd hq (List.not_mem_nil _)⟩
  | cons q t ih =>
    intro p
    have hstep : (q :: t).foldl (fun best q => if best.2 < q.2 then q else best) p =
        t.foldl (fun best q => if best.2 < q.2 then q else best)
          (if p.2 < q.2 then q else p) := rfl
    obtain ⟨hmem, hinit, hall⟩ := ih (if p.2 < q.2 then q else p)
    have hp2 : p.2 ≤ (if p.2 < q.2 then q else p).2 := by
      split
      · next hlt => exact le_of_lt hlt
      · exact le_refl _
    have hq2 : q.2 ≤ (if p.2 < q.2 then q else p).2 := by
      split
      · exact le_refl _
      · next hlt => exact le_of_not_lt hlt
    refine ⟨?_, ?_, ?_⟩
    · rw [hstep]
      rcases List.mem_cons.mp hmem with h1 | h1
      · rw [h1]
        split
        · exact List.mem_cons_of_mem _ (List.mem_cons_self _ _)
        · exact List.mem_cons_self _ _
      · exact List.mem_cons_of_mem _ (List.mem_cons_of_mem _ h1)
    · rw [hstep]
      exact le_trans hp2 hinit
    · rw [hstep]
      intro q' hq'
      rcases List.mem_cons.mp hq' with h1 | h1
      · rw [h1]
        exact le_trans hq2 hinit
      · exact hall q' h1

/-- `maxKeyPair` returns a member pair whose value bounds every value in
the list (Python's `max` keeps the first maximum; only the bound is needed
here). -/
theorem maxKeyPair_spec {β : Type} [LinearOrder β] {l : List (String × β)}
    {k : String} {v : β} (h : maxKeyPair l = some (k, v)) :
    (k, v) ∈ l ∧ ∀ p ∈ l, p.2 ≤ v := by
  cases l with
  | nil => cases h
  | cons p rest =>
    rw [maxKeyPair, Option.some_inj] at h
    obtain ⟨hmem, hinit, hall⟩ := maxKeyPair_fold_spec rest p
    rw [h] at hmem hinit hall
    refine ⟨hmem, ?_⟩
    intro q hq
    rcases List.mem_cons.mp hq with h1 | h1
    · rw [h1]; exact hinit
    · exact hall q h1

/-- `upsertAdd` preserves distinctness of the keys. -/
theorem upsertAdd_keys_nodup {l : List (String × Nat)}
    (h : (l.map Prod.fst).Nodup) (k : String) :
    ((upsertAdd l k).map Prod.fst).Nodup := by
  rw [upsertAdd]
  split
  · have : (l.map (fun p => if p.1 = k then (p.1, p.2 + 1) else p)).map Prod.fst =
        l.map Prod.fst := by
      rw [List.map_map]
      refine List.map_congr_left (fun p _ => ?_)
      simp only [Function.comp_apply]
      split <;> rfl
    rw [this]
    exact h
  · next hany =>
    rw [List.map_append, List.nodup_append]
    refine ⟨h, List.nodup_singleton _, ?_⟩
    intro a ha hb
    simp only [List.map_cons, List.map_nil, List.mem_singleton] at hb
    subst hb
    obtain ⟨p, hp, hp1⟩ := List.mem_map.mp ha
    rw [Bool.not_eq_true, List.any_eq_false] at hany
    exact hany p hp (by simpa using hp1)

/-- `upsertMax` preserves distinctness of the keys. -/
theorem upsertMax_keys_nodup {l : List (String × ℚ)}
    (h : (l.map Prod.fst).Nodup) (k : String) (v : ℚ) :
    ((upsertMax l k v).map Prod.fst).Nodup := by
  rw [upsertMax]
  split
  · have : (l.map (fun p => if p.1 = k then (p.1, max p.2 v) else p)).map Prod.fst =
        l.map Prod.fst := by
      rw [List.map_map]
      refine List.map_congr_left (fun p _ => ?_)
      simp only [Function.comp_apply]
      split <;> rfl
    rw [this]
    exact h
  · next hany =>
    rw [List.map_append, List.nodup_append]
    refine ⟨h, List.nodup_singleton _, ?_⟩
    intro a ha hb
    simp only [List.map_cons, List.map_nil, List.mem_singleton] at hb
    subst hb
    obtain ⟨p, hp, hp1⟩ := List.mem_map.mp ha
    rw [Bool.not_eq_true, List.any_eq_false] at hany
    exact hany p hp (by simpa using hp1)

/-- The fixture-tier inner fold over a pattern table with distinct keys:
at key `c`, the tally is bumped exactly when `c`'s row matches the
fixture. -/
theorem fixtureTableGet (fxt c : String) :
    ∀ (table : List (String × List String)) (acc : List (String × Nat)),
      (table.map Prod.fst).Nodup →
      scGet (table.foldl
          (fun sc p => if fixtureMatches p.2 fxt then upsertAdd sc p.1 else sc) acc) c =
        if fixtureMatches (((table.find? (fun p => p.1 = c)).map Prod.snd).getD []) fxt
        then some ((scGet acc c).getD 0 + 1)
        else scGet acc c := by
  intro table
  induction table with
  | nil =>
    intro acc _
    rw [if_neg (by simp [fixtureMatches])]
    rfl
  | cons row rest ih =>
    intro acc hn
    rw [List.map_cons, List.nodup_cons] at hn
    by_cases hc : row.1 = c
    · subst hc
      have hfind : (row :: rest).find? (fun p => p.1 = row.1) = some row := by
        simp [List.find?]
      rw [hfind]
      have hnone : rest.find? (fun p => p.1 = row.1) = none := by
        rw [List.find?_eq_none]
        intro x hx hdec
        exact hn.1 (List.mem_map.mpr ⟨x, hx, by simpa using (by simpa using hdec : x.1 = row.1)⟩)
      have hrest := ih (if fixtureMatches row.2 fxt then upsertAdd acc row.1 else acc) hn.2
      rw [hnone] at hrest
      simp only [Option.map_none', Option.getD_none] at hrest
      have hfm : fixtureMatches ([] : List String) fxt = false := rfl
      simp only [hfm, Bool.false_eq_true, if_false] at hrest
      rw [List.foldl_cons, hrest]
      simp only [Option.map_some', Option.getD_some]
      by_cases hm : fixtureMatches row.2 fxt
      · rw [if_pos hm, if_pos hm]
        exact upsertAdd_same acc row.1
      · rw [if_neg hm, if_neg hm]
    · have hfind : (row :: rest).find? (fun p => p.1 = c) =
          rest.find? (fun p => p.1 = c) := by
        simp [List.find?, hc]
      rw [hfind]
      have hacc : scGet (if fixtureMatches row.2 fxt then upsertAdd acc row.1 else acc) c =
          scGet acc c := by
        split
        · exact upsertAdd_other acc row.1 c (fun he => hc (he.symm))
        · rfl
      rw [List.foldl_cons, ih _ hn.2, hacc]

/-- `FIXTURE_PATTERNS` has pairwise-distinct category keys. -/
theorem fixture_patterns_keys_nodup : (FIXTURE_PATTERNS.map Prod.fst).Nodup := by
  decide

/-- One fixture bumps the tally at category `c` exactly when it matches
`c`'s patterns. -/
theorem fixtureTallyOne_get (fxt c : String) (acc : List (String × Nat)) :
    scGet (fixtureTallyOne fxt acc) c =
      if fixtureMatches (fixturePatternsOf c) fxt then
        some ((scGet acc c).getD 0 + 1)
      else scGet acc c := by
  rw [fixtureTallyOne, fixtureTableGet fxt c FIXTURE_PATTERNS acc fixture_patterns_keys_nodup]
  rfl

/-- The fixture tally at a category is its spec-side match count (each
fixture counted at most once per category, the content of the `break`). -/
theorem fixtureTally_get (c : String) :
    ∀ (fs : List String) (acc : List (String × Nat)),
      scGet (fs.foldl (fun sc f => fixtureTallyOne f sc) acc) c =
        if fixtureMatchCount fs c = 0 then scGet acc c
        else some ((scGet acc c).getD 0 + fixtureMatchCount fs c) := by
  intro fs
  induction fs with
  | nil => intro acc; simp [fixtureMatchCount]
  | cons f t ih =>
    intro acc
    rw [List.foldl_cons, ih (fixtureTallyOne f acc), fixtureTallyOne_get f c acc]
    have hcount : fixtureMatchCount (f :: t) c =
        fixtureMatchCount t c + (if fixtureMatches (fixturePatternsOf c) f then 1 else 0) := by
      rw [fixtureMatchCount, fixtureMatchCount, List.countP_cons]
    rw [hcount]
    by_cases hm : fixtureMatches (fixturePatternsOf c) f
    · simp only [hm, if_true]
      by_cases ht : fixtureMatchCount t c = 0
      · simp [ht]
      · rw [if_neg ht, if_neg (by omega)]
        simp only [Option.getD_some]
        congr 1
        omega
    · simp only [hm, Bool.false_eq_true, if_false, Nat.add_zero]

/-- Keys of the fixture tally are pairwise distinct. -/
theorem fixtureTally_keys_nodup (fs : List String) :
    ((fixtureTally fs).map Prod.fst).Nodup := by
  rw [fixtureTally]
  have hone : ∀ (sc : List (String × Nat)) (f : String),
      (sc.map Prod.fst).Nodup → (((fixtureTallyOne f sc).map Prod.fst).Nodup) := by
    intro sc f hsc
    rw [fixtureTallyOne]
    refine foldl_mem_invariant (fun l => (l.map Prod.fst).Nodup)
      (fun sc' p => if fixtureMatches p.2 f then upsertAdd sc' p.1 else sc')
      FIXTURE_PATTERNS sc ?_ hsc
    intro b' a _ hb'
    dsimp only
    split
    · exact upsertAdd_keys_nodup hb' a.1
    · exact hb'
  refine foldl_mem_invariant (fun l => (l.map Prod.fst).Nodup)
    (fun sc f => fixtureTallyOne f sc) fs [] ?_ (by simp)
  intro b' a _ hb'
  exact hone b' a hb'

/-- The fixture tier, characterized: a successful result names a category
with at least one match, no category matches more, and the confidence is
the source's function of that category's match count. -/
theorem infer_from_fixtures_spec {ctx : RoomContext} {r : String} {conf : ℚ}
    (h : infer_from_fixtures ctx = some (r, conf)) :
    1 ≤ fixtureMatchCount ctx.fixtures r ∧
    (∀ cat, fixtureMatchCount ctx.fixtures cat ≤ fixtureMatchCount ctx.fixtures r) ∧
    conf = fixtureConfidence (fixtureMatchCount ctx.fixtures r) := by
  simp only [infer_from_fixtures] at h
  split at h
  · exact absurd h (by simp)
  · split at h
    · exact absurd h (by simp)
    · next k m heq =>
      rw [Option.some_inj] at h
      have h1 : k = r := congrArg Prod.fst h
      have h2 : fixtureConfidence m = conf := congrArg Prod.snd h
      subst h1
      obtain ⟨hmem, hbound⟩ := maxKeyPair_spec heq
      have hget : scGet (fixtureTally ctx.fixtures) k = some m :=
        scGet_of_mem_nodup (fixtureTally_keys_nodup ctx.fixtures) hmem
      rw [fixtureTally, fixtureTally_get k ctx.fixtures []] at hget
      by_cases hc : fixtureMatchCount ctx.fixtures k = 0
      · rw [if_pos hc] at hget
        cases hget
      · rw [if_neg hc] at hget
        have hr : fixtureMatchCount ctx.fixtures k = m := by
          have h3 := Option.some_inj.mp hget
          simpa [scGet] using h3
        refine ⟨by omega, ?_, ?_⟩
        · intro cat
          by_cases hcc : fixtureMatchCount ctx.fixtures cat = 0
          · omega
          · have hcget : scGet (fixtureTally ctx.fixtures) cat =
                some (fixtureMatchCount ctx.fixtures cat) := by
              rw [fixtureTally, fixtureTally_get cat ctx.fixtures [], if_neg hcc]
              simp [scGet]
            have hb := hbound _ (scGet_mem hcget)
            simpa [hr] using hb
        · rw [hr, h2]

/-- A fixture matching no category leaves the tally untouched. -/
theorem fixtureTallyOne_no_match {f : String}
    (h : ∀ row ∈ FIXTURE_PATTERNS, fixtureMatches row.2 f = false)
    (acc : List (String × Nat)) : fixtureTallyOne f acc = acc := by
  rw [fixtureTallyOne]
  have aux : ∀ (table : List (String × List String)),
      (∀ row ∈ table, fixtureMatches row.2 f = false) →
      ∀ (sc : List (String × Nat)),
        table.foldl (fun sc p => if fixtureMatches p.2 f then upsertAdd sc p.1 else sc) sc = sc := by
    intro table
    induction table with
    | nil => intro _ sc; rfl
    | cons row rest ih =>
      intro hrow sc
      rw [List.foldl_cons, if_neg (by rw [hrow row (List.mem_cons_self _ _)]; simp)]
      exact ih (fun q hq => hrow q (List.mem_cons_of_mem _ hq)) sc
  exact aux FIXTURE_PATTERNS h acc

/-- When no fixture matches any pattern, the fixture tier yields nothing. -/
theorem infer_from_fixtures_none {ctx : RoomContext}
    (h : ∀ f ∈ ctx.fixtures, ∀ row ∈ FIXTURE_PATTERNS, fixtureMatches row.2 f = false) :
    infer_from_fixtures ctx = none := by
  have htally : fixtureTally ctx.fixtures = [] := by
    rw [fixtureTally]
    have aux : ∀ (fs : List String),
        (∀ f ∈ fs, ∀ row ∈ FIXTURE_PATTERNS, fixtureMatches row.2 f = false) →
        fs.foldl (fun sc f => fixtureTallyOne f sc) [] = [] := by
      intro fs
      induction fs with
      | nil => intro _; rfl
      | cons f t ih =>
        intro hf
        rw [List.foldl_cons, fixtureTallyOne_no_match (hf f (List.mem_cons_self _ _))]
        exact ih (fun f' hf' => hf f' (List.mem_cons_of_mem _ hf'))
    exact aux ctx.fixtures h
  simp only [infer_from_fixtures, htally]
  split
  · rfl
  · rfl

/-- Claim C6: when the fixture tier of `classify` produces a result, its
confidence is exactly `0.60` for one match, `0.75` for two, and
`min(0.95, 0.75 + 0.05 * (matches - 2))` for three or more, where
"matches" is the winning category's fixture match count (each fixture
counted once per category); when no fixture matches any pattern, the
classifier falls through to the text tier. -/
theorem c6_fixture_tier_confidence :
    (∀ (ctx : RoomContext) (r : String) (conf : ℚ),
        infer_from_fixtures ctx = some (r, conf) →
        1 ≤ fixtureMatchCount ctx.fixtures r ∧
        (∀ cat, fixtureMatchCount ctx.fixtures cat ≤ fixtureMatchCount ctx.fixtures r) ∧
        conf = (if fixtureMatchCount ctx.fixtures r = 1 then (0.6 : ℚ)
                else if fixtureMatchCount ctx.fixtures r = 2 then 0.75
                else min 0.95 (0.75 + ((fixtureMatchCount ctx.fixtures r : ℚ) - 2) * 0.05))) ∧
    (∀ (ai : Option AIService) (ctx : RoomContext),
        (∀ f ∈ ctx.fixtures, ∀ row ∈ FIXTURE_PATTERNS, fixtureMatches row.2 f = false) →
        infer_from_fixtures ctx = none ∧ classify ai ctx = classifyFromTextTier ai ctx) := by
  constructor
  · intro ctx r conf h
    obtain ⟨h1, h2, h3⟩ := infer_from_fixtures_spec h
    exact ⟨h1, h2, h3⟩
  · intro ai ctx h
    refine ⟨infer_from_fixtures_none h, ?_⟩
    simp only [classify, infer_from_fixtures_none h]

/-- Witness for C6 at the one-fixture context `["toilet"]` (confidence
`0.6`) and, for the fall-through part, a context whose only fixture
`"plant"` matches nothing. -/
theorem c6_fixture_tier_confidence_witness :
    (1 ≤ fixtureMatchCount [ "toilet" ] "bathroom" ∧
      (∀ cat, fixtureMatchCount [ "toilet" ] cat ≤ fixtureMatchCount [ "toilet" ] "bathroom") ∧
      (0.6 : ℚ) = (if fixtureMatchCount [ "toilet" ] "bathroom" = 1 then (0.6 : ℚ)
                else if fixtureMatchCount [ "toilet" ] "bathroom" = 2 then 0.75
                else min 0.95 (0.75 + ((fixtureMatchCount [ "toilet" ] "bathroom" : ℚ) - 2) * 0.05))) ∧
    classify none { polygon := [], area := 1, aspect_ratio := 1, fixtures := [ "plant" ] } =
      classifyFromTextTier none { polygon := [], area := 1, aspect_ratio := 1, fixtures := [ "plant" ] } := by
  constructor
  · exact c6_fixture_tier_confidence.1
      { polygon := [], area := 1, aspect_ratio := 1, fixtures := [ "toilet" ] }
      "bathroom" 0.6 rfl
  · exact (c6_fixture_tier_confidence.2 none
      { polygon := [], area := 1, aspect_ratio := 1, fixtures := [ "plant" ] }
      (by decide)).2

/-! ### The text tier (C8) -/

/-- `textTallyRow` leaves keys other than its own unchanged. -/
theorem textTallyRow_other (lt : String) (k c : String) (h : c ≠ k) :
    ∀ (pats : List String) (acc : List (String × ℚ)),
      scGet (textTallyRow lt pats k acc) c = scGet acc c := by
  intro pats
  induction pats with
  | nil => intro acc; rfl
  | cons p rest ih =>
    intro acc
    rw [textTallyRow, List.foldl_cons]
    by_cases hm : pyIn p lt
    · rw [if_pos hm]
      have := ih (upsertMax acc k ((p.length : ℚ) / 10))
      rw [textTallyRow] at this
      rw [this, upsertMax_other acc k c _ h]
    · rw [if_neg hm]
      have := ih acc
      rw [textTallyRow] at this
      rw [this]

/-- `textTallyRow` at its own key: the value becomes the running maximum of
the matched pattern scores, seeded with the previous value (default 0). -/
theorem textTallyRow_same (lt : String) (k : String) :
    ∀ (pats : List String) (acc : List (String × ℚ)),
      scGet (textTallyRow lt pats k acc) k =
        if (pats.filter (fun p => pyIn p lt)) = [] then scGet acc k
        else some (((pats.filter (fun p => pyIn p lt)).map
            (fun p => (p.length : ℚ) / 10)).foldl max ((scGet acc k).getD 0)) := by
  intro pats
  induction pats with
  | nil => intro acc; simp [textTallyRow]
  | cons p rest ih =>
    intro acc
    rw [textTallyRow, List.foldl_cons]
    by_cases hm : pyIn p lt
    · rw [if_pos hm]
      have hstep := ih (upsertMax acc k ((p.length : ℚ) / 10))
      rw [textTallyRow] at hstep
      rw [hstep, upsertMax_same]
      have hfil : (p :: rest).filter (fun q => pyIn q lt) =
          p :: rest.filter (fun q => pyIn q lt) := by
        rw [List.filter_cons, if_pos hm]
      rw [hfil]
      by_cases hrest : rest.filter (fun q => pyIn q lt) = []
      · rw [if_pos hrest, if_neg (by simp), hrest]
        simp
      · rw [if_neg hrest, if_neg (by simp [hrest])]
        simp only [Option.getD_some, List.map_cons, List.foldl_cons]
    · rw [if_neg hm]
      have hstep := ih acc
      rw [textTallyRow] at hstep
      rw [hstep]
      have hfil : (p :: rest).filter (fun q => pyIn q lt) =
          rest.filter (fun q => pyIn q lt) := by
        rw [List.filter_cons, if_neg (by simp [hm])]
      rw [hfil]

/-- The scores of the matched patterns of one lowered text against a
pattern list. -/
theorem textTableGet (lt c : String) :
    ∀ (table : List (String × List String)) (acc : List (String × ℚ)),
      (table.map Prod.fst).Nodup →
      scGet (table.foldl (fun sc p => textTallyRow lt p.2 p.1 sc) acc) c =
        (if ((((table.find? (fun p => p.1 = c)).map Prod.snd).getD []).filter
              (fun p => pyIn p lt)) = [] then scGet acc c
         else some ((((((table.find? (fun p => p.1 = c)).map Prod.snd).getD []).filter
              (fun p => pyIn p lt)).map (fun p => (p.length : ℚ) / 10)).foldl max
            ((scGet acc c).getD 0))) := by
  intro table
  induction table with
  | nil =>
    intro acc _
    rw [if_pos (by simp)]
    rfl
  | cons row rest ih =>
    intro acc hn
    rw [List.map_cons, List.nodup_cons] at hn
    by_cases hc : row.1 = c
    · subst hc
      have hfind : (row :: rest).find? (fun p => p.1 = row.1) = some row := by
        simp [List.find?]
      have hnone : rest.find? (fun p => p.1 = row.1) = none := by
        rw [List.find?_eq_none]
        intro x hx hdec
        exact hn.1 (List.mem_map.mpr ⟨x, hx, by simpa using (by simpa using hdec : x.1 = row.1)⟩)
      have hrest := ih (textTallyRow lt row.2 row.1 acc) hn.2
      rw [hnone] at hrest
      simp only [Option.map_none', Option.getD_none, List.filter_nil, if_pos] at hrest
      rw [List.foldl_cons, hrest, hfind]
      simp only [Option.map_some', Option.getD_some]
      exact textTallyRow_same lt row.1 row.2 acc
    · have hfind : (row :: rest).find? (fun p => p.1 = c) =
          rest.find? (fun p => p.1 = c) := by
        simp [List.find?, hc]
      rw [List.foldl_cons, ih _ hn.2, hfind,
        textTallyRow_other lt row.1 c (fun he => hc he.symm) row.2 acc]

/-- `TEXT_PATTERNS` has pairwise-distinct category keys. -/
theorem text_patterns_keys_nodup : (TEXT_PATTERNS.map Prod.fst).Nodup := by
  decide

/-- One text label updates category `c` to the running maximum of the
scores of its matched patterns. -/
theorem textTallyOne_get (t c : String) (acc : List (String × ℚ)) :
    scGet (textTallyOne t acc) c =
      if ((textPatternsOf c).filter (fun p => pyIn p (pyLower t))) = [] then scGet acc c
      else some ((((textPatternsOf c).filter (fun p => pyIn p (pyLower t))).map
          (fun p => (p.length : ℚ) / 10)).foldl max ((scGet acc c).getD 0)) := by
  rw [textTallyOne, textTableGet (pyLower t) c TEXT_PATTERNS acc text_patterns_keys_nodup]
  rfl

/-- `textScoresOf` distributes over a cons of texts. -/
theorem textScoresOf_cons (t : String) (ts : List String) (c : String) :
    textScoresOf (t :: ts) c =
      (((textPatternsOf c).filter (fun p => pyIn p (pyLower t))).map
        (fun p => (p.length : ℚ) / 10)) ++ textScoresOf ts c := rfl

/-- The text tally at a category is the running maximum of all its matched
(text, pattern) scores. -/
theorem textTally_get (c : String) :
    ∀ (texts : List String) (acc : List (String × ℚ)),
      scGet (texts.foldl (fun sc t => textTallyOne t sc) acc) c =
        if textScoresOf texts c = [] then scGet acc c
        else some ((textScoresOf texts c).foldl max ((scGet acc c).getD 0)) := by
  intro texts
  induction texts with
  | nil => intro acc; simp [textScoresOf]
  | cons t ts ih =>
    intro acc
    rw [List.foldl_cons, ih (textTallyOne t acc), textTallyOne_get t c acc,
      textScoresOf_cons]
    by_cases h1 : ((textPatternsOf c).filter (fun p => pyIn p (pyLower t))) = []
    · rw [h1]
      simp only [List.map_nil, List.nil_append, if_pos h1]
      split <;> simp
    · by_cases h2 : textScoresOf ts c = []
      · rw [if_pos h2, if_neg h1, h2, List.append_nil,
          if_neg (by simp [h1])]
      · rw [if_neg h2, if_neg h1]
        rw [if_neg (by simp [h2]), Option.getD_some, List.foldl_append]

/-- Keys of the text tally are pairwise distinct. -/
theorem textTally_keys_nodup (texts : List String) :
    ((textTally texts).map Prod.fst).Nodup := by
  rw [textTally]
  have hrow : ∀ (lt : String) (pats : List String) (k : String)
      (sc : List (String × ℚ)), (sc.map Prod.fst).Nodup →
      ((textTallyRow lt pats k sc).map Prod.fst).Nodup := by
    intro lt pats k
    induction pats with
    | nil => intro sc h; exact h
    | cons p rest ih =>
      intro sc h
      rw [textTallyRow, List.foldl_cons]
      by_cases hm : pyIn p lt
      · rw [if_pos hm]
        have := ih (upsertMax sc k ((p.length : ℚ) / 10)) (upsertMax_keys_nodup h k _)
        rw [textTallyRow] at this
        exact this
      · rw [if_neg hm]
        have := ih sc h
        rw [textTallyRow] at this
        exact this
  have hone : ∀ (t : String) (sc : List (String × ℚ)), (sc.map Prod.fst).Nodup →
      ((textTallyOne t sc).map Prod.fst).Nodup := by
    intro t sc hsc
    rw [textTallyOne]
    refine foldl_mem_invariant (fun l => (l.map Prod.fst).Nodup)
      (fun sc' p => textTallyRow (pyLower t) p.2 p.1 sc')
      TEXT_PATTERNS sc ?_ hsc
    intro b' a _ hb'
    exact hrow _ a.2 a.1 b' hb'
  refine foldl_mem_invariant (fun l => (l.map Prod.fst).Nodup)
    (fun sc t => textTallyOne t sc) texts [] ?_ (by simp)
  intro b' a _ hb'
  exact hone a b' hb'

/-- Every pattern in the text table is nonempty. -/
theorem text_patterns_pos : ∀ row ∈ TEXT_PATTERNS, ∀ p ∈ row.2, 0 < p.length := by
  decide

/-- Every matched-pattern score is strictly positive. -/
theorem textScoresOf_pos (c : String) :
    ∀ (texts : List String), ∀ s ∈ textScoresOf texts c, 0 < s := by
  intro texts
  induction texts with
  | nil => intro s hs; cases hs
  | cons t ts ih =>
    intro s hs
    rw [textScoresOf_cons] at hs
    rcases List.mem_append.mp hs with hs | hs
    · obtain ⟨p, hp, hps⟩ := List.mem_map.mp hs
      have hpmem : p ∈ textPatternsOf c := (List.mem_filter.mp hp).1
      have hlen : 0 < p.length := by
        rw [textPatternsOf] at hpmem
        cases hfind : TEXT_PATTERNS.find? (fun q => q.1 = c) with
        | none => rw [hfind] at hpmem; cases hpmem
        | some row =>
          rw [hfind] at hpmem
          exact text_patterns_pos row (List.mem_of_find?_eq_some hfind) p hpmem
      rw [← hps]
      positivity
    · exact ih s hs

/-- `a ≤ foldl max a S`. -/
theorem le_foldl_max (S : List ℚ) : ∀ a : ℚ, a ≤ S.foldl max a := by
  induction S with
  | nil => intro a; exact le_refl a
  | cons s t ih =>
    intro a
    rw [List.foldl_cons]
    exact le_trans (le_max_left a s) (ih (max a s))

/-- Every element of `S` is at most `foldl max a S`. -/
theorem mem_le_foldl_max {S : List ℚ} : ∀ (a : ℚ), ∀ s ∈ S, s ≤ S.foldl max a := by
  induction S with
  | nil => intro a s hs; cases hs
  | cons x t ih =>
    intro a s hs
    rw [List.foldl_cons]
    rcases List.mem_cons.mp hs with hs | hs
    · rw [hs]
      exact le_trans (le_max_right a x) (le_foldl_max t (max a x))
    · exact ih (max a x) s hs

/-- `foldl max a S` is the seed or an element of `S`. -/
theorem foldl_max_mem (S : List ℚ) : ∀ a : ℚ, S.foldl max a = a ∨ S.foldl max a ∈ S := by
  induction S with
  | nil => intro a; exact Or.inl rfl
  | cons x t ih =>
    intro a
    rw [List.foldl_cons]
    rcases ih (max a x) with h | h
    · rcases max_choice a x with hm | hm
      · exact Or.inl (h.trans hm)
      · exact Or.inr (List.mem_cons.mpr (Or.inl (h.trans hm)))
    · exact Or.inr (List.mem_cons_of_mem _ h)

/-- The text tier, characterized: a successful result names a category with
a maximal matched score `best = len(pattern)/10`, no category scores
higher, and the confidence is `min(0.85, 0.5 + best)`. -/
theorem infer_from_text_spec {ctx : RoomContext} {r : String} {conf : ℚ}
    (h : infer_from_text ctx = some (r, conf)) :
    ∃ best : ℚ,
      best ∈ textScoresOf ctx.nearby_text r ∧
      (∀ s ∈ textScoresOf ctx.nearby_text r, s ≤ best) ∧
      (∀ cat, ∀ s ∈ textScoresOf ctx.nearby_text cat, s ≤ best) ∧
      conf = min 0.85 (0.5 + best) := by
  simp only [infer_from_text] at h
  split at h
  · exact absurd h (by simp)
  · split at h
    · exact absurd h (by simp)
    · next k v heq =>
      rw [Option.some_inj] at h
      have h1 : k = r := congrArg Prod.fst h
      have h2 : min 0.85 (0.5 + v) = conf := congrArg Prod.snd h
      subst h1
      obtain ⟨hmem, hbound⟩ := maxKeyPair_spec heq
      have hget : scGet (textTally ctx.nearby_text) k = some v :=
        scGet_of_mem_nodup (textTally_keys_nodup ctx.nearby_text) hmem
      rw [textTally, textTally_get k ctx.nearby_text []] at hget
      by_cases hs : textScoresOf ctx.nearby_text k = []
      · rw [if_pos hs] at hget
        cases hget
      · rw [if_neg hs] at hget
        have hv : v = (textScoresOf ctx.nearby_text k).foldl max 0 := by
          have h3 := Option.some_inj.mp hget
          simpa [scGet] using h3.symm
        refine ⟨v, ?_, ?_, ?_, h2.symm⟩
        · rcases foldl_max_mem (textScoresOf ctx.nearby_text k) 0 with hz | hz
          · exfalso
            obtain ⟨s, hsmem⟩ := List.exists_mem_of_ne_nil _ hs
            have hpos := textScoresOf_pos k ctx.nearby_text s hsmem
            have hle : s ≤ (textScoresOf ctx.nearby_text k).foldl max 0 :=
              mem_le_foldl_max 0 s hsmem
            rw [hz] at hle
            exact absurd (lt_of_lt_of_le hpos hle) (lt_irrefl 0)
          · rw [hv]
            exact hz
        · intro s hsmem
          rw [hv]
          exact mem_le_foldl_max 0 s hsmem
        · intro cat s hsmem
          have hcs : textScoresOf ctx.nearby_text cat ≠ [] :=
            fun he => by rw [he] at hsmem; cases hsmem
          have hcget : scGet (textTally ctx.nearby_text) cat =
              some ((textScoresOf ctx.nearby_text cat).foldl max 0) := by
            rw [textTally, textTally_get cat ctx.nearby_text [], if_neg hcs]
            simp [scGet]
          have hb := hbound _ (scGet_mem hcget)
          calc s ≤ (textScoresOf ctx.nearby_text cat).foldl max 0 :=
                mem_le_foldl_max 0 s hsmem
            _ ≤ v := hb

/-- A text label matching no pattern leaves the tally untouched. -/
theorem textTallyOne_no_match {t : String}
    (h : ∀ row ∈ TEXT_PATTERNS, ∀ p ∈ row.2, pyIn p (pyLower t) = false)
    (acc : List (String × ℚ)) : textTallyOne t acc = acc := by
  rw [textTallyOne]
  have hrow : ∀ (pats : List String) (k : String) (sc : List (String × ℚ)),
      (∀ p ∈ pats, pyIn p (pyLower t) = false) →
      textTallyRow (pyLower t) pats k sc = sc := by
    intro pats
    induction pats with
    | nil => intro k sc _; rfl
    | cons p rest ih =>
      intro k sc hp
      rw [textTallyRow, List.foldl_cons,
        if_neg (by rw [hp p (List.mem_cons_self _ _)]; simp)]
      have := ih k sc (fun q hq => hp q (List.mem_cons_of_mem _ hq))
      rw [textTallyRow] at this
      exact this
  have aux : ∀ (table : List (String × List String)),
      (∀ row ∈ table, ∀ p ∈ row.2, pyIn p (pyLower t) = false) →
      ∀ (sc : List (String × ℚ)),
        table.foldl (fun sc p => textTallyRow (pyLower t) p.2 p.1 sc) sc = sc := by
    intro table
    induction table with
    | nil => intro _ sc; rfl
    | cons row rest ih =>
      intro hrows sc
      rw [List.foldl_cons, hrow row.2 row.1 sc (hrows row (List.mem_cons_self _ _))]
      exact ih (fun q hq => hrows q (List.mem_cons_of_mem _ hq)) sc
  exact aux TEXT_PATTERNS h acc

/-- When no text matches any pattern, the text tier yields nothing. -/
theorem infer_from_text_none {ctx : RoomContext}
    (h : ∀ t ∈ ctx.nearby_text, ∀ row ∈ TEXT_PATTERNS, ∀ p ∈ row.2,
      pyIn p (pyLower t) = false) :
    infer_from_text ctx = none := by
  have htally : textTally ctx.nearby_text = [] := by
    rw [textTally]
    have aux : ∀ (ts : List String),
        (∀ t ∈ ts, ∀ row ∈ TEXT_PATTERNS, ∀ p ∈ row.2, pyIn p (pyLower t) = false) →
        ts.foldl (fun sc t => textTallyOne t sc) [] = [] := by
      intro ts
      induction ts with
      | nil => intro _; rfl
      | cons t rest ih =>
        intro ht
        rw [List.foldl_cons, textTallyOne_no_match (ht t (List.mem_cons_self _ _))]
        exact ih (fun t' ht' => ht t' (List.mem_cons_of_mem _ ht'))
    exact aux ctx.nearby_text h
  simp only [infer_from_text, htally]
  split
  · rfl
  · rfl

/-- Claim C8: for a context with no fixture match and at least one
nearby-text match, the text tier scores each matched keyword pattern as
`len(pattern)/10`, keeps the maximum per category over all texts and
patterns, returns a category whose score no other category exceeds with
confidence exactly `min(0.85, 0.5 + best_score)`, and the classifier
reports that result; with no text match the tier falls through. -/
theorem c8_text_tier_scoring :
    (∀ (ctx : RoomContext) (r : String) (conf : ℚ),
        infer_from_text ctx = some (r, conf) →
        ∃ best : ℚ,
          best ∈ textScoresOf ctx.nearby_text r ∧
          (∀ s ∈ textScoresOf ctx.nearby_text r, s ≤ best) ∧
          (∀ cat, ∀ s ∈ textScoresOf ctx.nearby_text cat, s ≤ best) ∧
          conf = min 0.85 (0.5 + best)) ∧
    (∀ (ctx : RoomContext),
        (∀ t ∈ ctx.nearby_text, ∀ row ∈ TEXT_PATTERNS, ∀ p ∈ row.2,
            pyIn p (pyLower t) = false) →
        infer_from_text ctx = none) ∧
    (∀ (ai : Option AIService) (ctx : RoomContext) (r : String) (conf : ℚ),
        infer_from_fixtures ctx = none → infer_from_text ctx = some (r, conf) →
        classify ai ctx =
          { room_type := r, confidence := conf,
            reasoning := "Detected from text labels: " ++
              String.intercalate ", " ctx.nearby_text }) := by
  refine ⟨fun ctx r conf h => infer_from_text_spec h,
    fun ctx h => infer_from_text_none h, ?_⟩
  intro ai ctx r conf hfix htext
  simp only [classify, hfix, classifyFromTextTier, htext]

/-- The text tier on the single label `"wc"`, evaluated (used by the C8
witness): only the bathroom pattern `"wc"` matches, scoring `0.2`, so the
confidence is `min(0.85, 0.7) = 0.7`.  The fold only constructs the score
terms, so the equation holds by reduction; the closing arithmetic is one
`norm_num` step. -/
theorem infer_from_text_wc :
    infer_from_text
      { polygon := [], area := 10, aspect_ratio := 1,
        nearby_text := [ "wc" ] } = some ("bathroom", 0.7) := by
  have h : infer_from_text
      { polygon := [], area := 10, aspect_ratio := 1,
        nearby_text := [ "wc" ] } =
      some ("bathroom", min 0.85 (0.5 + max 0 ((("wc".length : ℚ)) / 10))) := rfl
  rw [h, show ("wc".length) = 2 from rfl]
  norm_num

/-- Witness for C8 at the context with nearby text `["wc"]`. -/
theorem c8_text_tier_scoring_witness :
    ∃ best : ℚ,
      best ∈ textScoresOf [ "wc" ] "bathroom" ∧
      (∀ s ∈ textScoresOf [ "wc" ] "bathroom", s ≤ best) ∧
      (∀ cat, ∀ s ∈ textScoresOf [ "wc" ] cat, s ≤ best) ∧
      (0.7 : ℚ) = min 0.85 (0.5 + best) :=
  c8_text_tier_scoring.1
    { polygon := [], area := 10, aspect_ratio := 1, nearby_text := [ "wc" ] }
    "bathroom" 0.7 infer_from_text_wc

/-- Claim C10: each fixture string bumps a category's tally at most once
even when it contains several of that category's patterns — the tally value
never exceeds the number of fixtures, `"bathtub"` (matching both `"tub"`
and `"bath"`) classifies at confidence `0.6`, and any successful
fixture-tier classification of a one-fixture context has confidence
exactly `0.6`. -/
theorem c10_fixture_counted_once :
    (∀ (fixtures : List String) (cat : String),
        (scGet (fixtureTally fixtures) cat).getD 0 ≤ fixtures.length) ∧
    infer_from_fixtures { polygon := [], area := 1, aspect_ratio := 1, fixtures := [ "bathtub" ] } =
      some ("bathroom", 0.6) ∧
    (∀ (ctx : RoomContext) (r : String) (conf : ℚ),
        ctx.fixtures.length = 1 →
        infer_from_fixtures ctx = some (r, conf) → conf = 0.6) := by
  refine ⟨?_, rfl, ?_⟩
  · intro fixtures cat
    rw [fixtureTally, fixtureTally_get cat fixtures []]
    split
    · simp [scGet]
    · simp only [scGet, List.find?_nil, Option.map_none', Option.getD_none,
        Option.getD_some, Nat.zero_add]
      exact List.countP_le_length _
  · intro ctx r conf hlen h
    obtain ⟨h1, _, h3⟩ := infer_from_fixtures_spec h
    have h4 : fixtureMatchCount ctx.fixtures r ≤ 1 := by
      rw [fixtureMatchCount]
      calc ctx.fixtures.countP _ ≤ ctx.fixtures.length := List.countP_le_length _
        _ = 1 := hlen
    have h5 : fixtureMatchCount ctx.fixtures r = 1 := le_antisymm h4 h1
    rw [h5] at h3
    exact h3

/-- Witness for C10: the `"bathtub"` context satisfies the one-fixture
hypothesis, so its confidence is `0.6`. -/
theorem c10_fixture_counted_once_witness :
    (0.6 : ℚ) = 0.6 :=
  c10_fixture_counted_once.2.2
    { polygon := [], area := 1, aspect_ratio := 1, fixtures := [ "bathtub" ] }
    "bathroom" 0.6 rfl c10_fixture_counted_once.2.1

/-! ## Acyclic graphs yield no cycles (C3) -/

/-- A node found by id lookup carries that id. -/
theorem findNode_id {g : WallGraph} {i : Nat} {nd : GraphNode}
    (h : findNode g i = some nd) : nd.id = i := by
  have := List.find?_some h
  simpa using this

/-- Edges listed at a node are edges of the graph. -/
theorem get_edges_from_node_mem {g : WallGraph} {nid : Nat} {e : GraphEdge}
    (h : e ∈ get_edges_from_node g nid) : e ∈ g.edges := by
  rw [get_edges_from_node] at h
  split at h
  · cases h
  · obtain ⟨eid, _, hfind⟩ := List.mem_filterMap.mp h
    exact List.mem_of_find?_eq_some hfind

/-- `get_other_node` success determines the edge's endpoints. -/
theorem get_other_node_connects {g : WallGraph} {e : GraphEdge} {nid : Nat}
    {nd : GraphNode} (h : get_other_node g e nid = some nd) :
    e.node_ids = (nid, nd.id) ∨ e.node_ids = (nd.id, nid) := by
  rw [get_other_node] at h
  split at h
  · next h1 =>
    left
    have h2 := findNode_id h
    rw [← h1, h2]
  · split at h
    · next h1 =>
      right
      have h2 := findNode_id h
      rw [← h1, h2]
    · cases h

/-- A rightmost edge is an edge of the graph, different from the arrival
edge. -/
theorem find_rightmost_edge_spec {g : WallGraph} {cn pn : GraphNode}
    {ce e : GraphEdge} (h : find_rightmost_edge g cn pn ce = some e) :
    e ∈ g.edges ∧ e.id ≠ ce.id := by
  rw [find_rightmost_edge] at h
  split at h
  · cases h
  · split at h
    · cases h
    · simp only [Option.map_eq_some'] at h
      obtain ⟨x, hx, hx1⟩ := h
      subst hx1
      have main := foldl_mem_invariant
        (fun b : Option (GraphEdge × Point) =>
          ∀ y, b = some y → y.1 ∈ g.edges ∧ y.1.id ≠ ce.id)
        (fun (best : Option (GraphEdge × Point)) (e : GraphEdge) =>
          if e.id = ce.id then best
          else
            match get_other_node g e cn.id with
            | none => best
            | some other =>
                let u := dirOf (other.position.1 - cn.position.1,
                                other.position.2 - cn.position.2)
                match best with
                | none => some (e, u)
                | some (_, ub) => if turnGt (dirOf (cn.position.1 - pn.position.1,
                    cn.position.2 - pn.position.2)) u ub then some (e, u) else best)
        (get_edges_from_node g cn.id) none ?_ (fun y hy => by cases hy)
      · exact main x hx
      · intro b a ha hb y hy
        dsimp only at hy
        by_cases hid : a.id = ce.id
        · rw [if_pos hid] at hy
          exact hb y hy
        · rw [if_neg hid] at hy
          cases hoth : get_other_node g a cn.id with
          | none =>
            rw [hoth] at hy
            exact hb y hy
          | some other =>
            rw [hoth] at hy
            cases b with
            | none =>
              rw [Option.some_inj] at hy
              subst hy
              exact ⟨get_edges_from_node_mem ha, hid⟩
            | some bv =>
              obtain ⟨b1, b2⟩ := bv
              dsimp only at hy
              split at hy
              · rw [Option.some_inj] at hy
                subst hy
                exact ⟨get_edges_from_node_mem ha, hid⟩
              · exact hb y hy

/-- `walkEnd` through a cons. -/
theorem walkEnd_cons (w v : Nat) (e : Nat) (t : List (Nat × Nat)) :
    walkEnd v ((e, w) :: t) = walkEnd w t := by
  rw [walkEnd, walkEnd, List.map_cons, List.getLastD_cons]

/-- A walk splits at an append: the second part starts where the first
ends. -/
theorem validFrom_append {g : WallGraph} :
    ∀ (s1 s2 : List (Nat × Nat)) (v : Nat),
      validFrom g v (s1 ++ s2) ↔
        validFrom g v s1 ∧ validFrom g (walkEnd v s1) s2 := by
  intro s1
  induction s1 with
  | nil =>
    intro s2 v
    simp [validFrom, walkEnd]
  | cons a t ih =>
    intro s2 v
    obtain ⟨e, w⟩ := a
    rw [List.cons_append]
    constructor
    · intro h
      obtain ⟨h1, h2⟩ := h
      rw [ih] at h2
      exact ⟨⟨h1, h2.1⟩, by rw [walkEnd_cons]; exact h2.2⟩
    · intro h
      obtain ⟨⟨h1, h2⟩, h3⟩ := h
      rw [walkEnd_cons] at h3
      exact ⟨h1, (ih s2 w).mpr ⟨h2, h3⟩⟩

/-- A list with a repetition splits around the repeated element. -/
theorem not_nodup_decomp {α : Type _} :
    ∀ (l : List α), ¬l.Nodup → ∃ pre x mid post, l = pre ++ x :: mid ++ x :: post := by
  intro l
  induction l with
  | nil => intro h; exact absurd List.nodup_nil h
  | cons a t ih =>
    intro h
    by_cases ha : a ∈ t
    · obtain ⟨mid, post, hdec⟩ := List.append_of_mem ha
      exact ⟨[], a, mid, post, by rw [hdec]; rfl⟩
    · have hnt : ¬t.Nodup := fun hn => h (List.nodup_cons.mpr ⟨ha, hn⟩)
      obtain ⟨pre, x, mid, post, hdec⟩ := ih hnt
      exact ⟨a :: pre, x, mid, post, by rw [hdec]; rfl⟩

/-- If the image list is nodup, distinct members have distinct images. -/
theorem nodup_map_ne {α β : Type _} {l : List α} {f : α → β}
    (h : (l.map f).Nodup) {a b : α} (ha : a ∈ l) (hb : b ∈ l) (hne : a ≠ b) :
    f a ≠ f b := by
  intro hfe
  obtain ⟨i, hia⟩ := List.mem_iff_get.mp ha
  obtain ⟨j, hjb⟩ := List.mem_iff_get.mp hb
  have hij : i ≠ j := fun he => hne (by rw [← hia, ← hjb, he])
  apply hij
  have h1 : (l.map f).get ⟨i.1, by simpa using i.2⟩ = f a := by
    rw [List.get_map]
    exact congrArg f hia
  have h2 : (l.map f).get ⟨j.1, by simpa using j.2⟩ = f b := by
    rw [List.get_map]
    exact congrArg f hjb
  have h3 : (⟨i.1, by simpa using i.2⟩ : Fin (l.map f).length) = ⟨j.1, by simpa using j.2⟩ :=
    h.get_inj_iff.mp (by rw [h1, h2, hfe])
  have h4 : i.1 = j.1 := by simpa using h3
  exact Fin.ext h4

/-- The undirected key is symmetric. -/
theorem sortPair_comm (a b : Nat) : sortPair a b = sortPair b a := by
  rw [sortPair, sortPair]
  rcases le_or_lt a b with h | h
  · rcases le_or_lt b a with h2 | h2
    · rw [if_pos h, if_pos h2, le_antisymm h h2]
    · rw [if_pos h, if_neg (not_le.mpr h2)]
  · rw [if_neg (not_le.mpr h), if_pos (le_of_lt h)]

/-- In a graph whose edges have distinct endpoints and pairwise-distinct
undirected keys, an acyclic graph admits no non-backtracking closed walk:
a length-1 closed walk is a self-loop, a length-2 one needs parallel
edges, and a longer one either is a simple loop or contains a strictly
shorter closed walk around a repeated vertex. -/
theorem no_closed_walk {g : WallGraph}
    (hs1 : ∀ e ∈ g.edges, e.node_ids.1 ≠ e.node_ids.2)
    (hs2 : (g.edges.map (fun e => sortPair e.node_ids.1 e.node_ids.2)).Nodup)
    (hacyc : Acyclic g) :
    ∀ (n : Nat) (steps : List (Nat × Nat)) (v0 : Nat), steps.length = n →
      validFrom g v0 steps → NonBacktracking steps →
      steps ≠ [] → walkEnd v0 steps = v0 → False := by
  intro n
  induction n using Nat.strong_induction_on with
  | _ n ih =>
  intro steps v0 hlen hvalid hnb hne hclosed
  rcases steps with _ | ⟨⟨e1, w1⟩, t⟩
  · exact hne rfl
  rcases t with _ | ⟨⟨e2, w2⟩, t2⟩
  · -- length 1: a closed single step is a self-loop
    have hw : w1 = v0 := by simpa [walkEnd] using hclosed
    obtain ⟨h1, -⟩ := hvalid
    obtain ⟨ed, hmem, -, hor⟩ := h1
    rcases hor with h | h
    · exact hs1 ed hmem (by rw [h, hw])
    · exact hs1 ed hmem (by rw [h, hw])
  rcases t2 with _ | ⟨⟨e3, w3⟩, t3⟩
  · -- length 2: two distinct edges with the same unordered endpoints
    have hw : w2 = v0 := by simpa [walkEnd] using hclosed
    obtain ⟨h1, h2, -⟩ := hvalid
    have hne12 : e1 ≠ e2 := by
      have h := hnb
      rw [NonBacktracking] at h
      simp only [List.map_cons, List.map_nil] at h
      exact (List.chain'_cons.mp h).1
    obtain ⟨ea, hma, hia, hoa⟩ := h1
    obtain ⟨eb, hmb, hib, hob⟩ := h2
    rw [hw] at hob
    have hpa : sortPair ea.node_ids.1 ea.node_ids.2 = sortPair v0 w1 := by
      rcases hoa with h | h
      · rw [h]
      · rw [h]; exact sortPair_comm w1 v0
    have hpb : sortPair eb.node_ids.1 eb.node_ids.2 = sortPair v0 w1 := by
      rcases hob with h | h
      · rw [h]; exact sortPair_comm w1 v0
      · rw [h]
    have hneab : ea ≠ eb := fun he => hne12 (by rw [← hia, ← hib, he])
    exact nodup_map_ne hs2 hma hmb hneab (hpa.trans hpb.symm)
  · -- length ≥ 3
    set S : List (Nat × Nat) := (e1, w1) :: (e2, w2) :: (e3, w3) :: t3 with hSdef
    have hLne : S.map Prod.snd ≠ [] := by rw [hSdef]; simp
    by_cases hnd : (v0 :: S.map Prod.snd).dropLast.Nodup
    · exact hacyc ⟨v0, S, hvalid, hnb,
        by rw [hSdef]; simp only [List.length_cons]; omega, hclosed, hnd⟩
    · obtain ⟨pre, x, mid, post, hdec⟩ := not_nodup_decomp _ hnd
      have hvlist : (v0 :: S.map Prod.snd).dropLast = v0 :: (S.map Prod.snd).dropLast := by
        rw [hSdef]
        rfl
      rw [hvlist] at hdec
      obtain ⟨lastL, hLlast⟩ : ∃ y, (S.map Prod.snd).dropLast ++ [y] = S.map Prod.snd :=
        ⟨(S.map Prod.snd).getLast hLne, List.dropLast_append_getLast hLne⟩
      cases pre with
      | nil =>
        rw [List.nil_append] at hdec
        injection hdec with hx hdl
        subst hx
        have hLsplit : S.map Prod.snd =
            (mid ++ [v0]) ++ (post ++ [lastL]) := by
          rw [← hLlast, hdl]
          simp
        obtain ⟨s1, s2, hS, hm1, hm2⟩ := List.map_eq_append_iff.mp hLsplit
        have hs1ne : s1 ≠ [] := by
          intro he
          rw [he] at hm1
          exact absurd hm1.symm (by simp)
        have hs2ne : s2 ≠ [] := by
          intro he
          rw [he] at hm2
          exact absurd hm2.symm (by simp)
        have hvalid1 : validFrom g v0 s1 := ((validFrom_append s1 s2 v0).mp (hS ▸ hvalid)).1
        have hclosed1 : walkEnd v0 s1 = v0 := by
          rw [walkEnd, hm1]
          simp [List.getLastD_concat]
        have hnb1 : NonBacktracking s1 := by
          have h := hnb
          rw [NonBacktracking, hS, List.map_append] at h
          exact (List.chain'_append.mp h).1
        have hlt : s1.length < n := by
          rw [← hlen, hS, List.length_append]
          have h2 : 0 < s2.length := List.length_pos.mpr hs2ne
          omega
        exact ih s1.length hlt s1 v0 rfl hvalid1 hnb1 hs1ne hclosed1
      | cons p0 pre' =>
        injection hdec with hv0 hdl
        have hLsplit : S.map Prod.snd =
            (pre' ++ [x]) ++ ((mid ++ [x]) ++ (post ++ [lastL])) := by
          rw [← hLlast, hdl]
          simp
        obtain ⟨s1, s23, hS, hm1, hm23⟩ := List.map_eq_append_iff.mp hLsplit
        obtain ⟨s2, s3, hS23, hm2, hm3⟩ := List.map_eq_append_iff.mp hm23
        subst hS23
        have hs1ne : s1 ≠ [] := by
          intro he
          rw [he] at hm1
          exact absurd hm1.symm (by simp)
        have hs2ne : s2 ≠ [] := by
          intro he
          rw [he] at hm2
          exact absurd hm2.symm (by simp)
        have hend1 : walkEnd v0 s1 = x := by
          rw [walkEnd, hm1]
          simp [List.getLastD_concat]
        have hvsplit := (validFrom_append s1 (s2 ++ s3) v0).mp (hS ▸ hvalid)
        have hvsplit2 := (validFrom_append s2 s3 (walkEnd v0 s1)).mp hvsplit.2
        have hvalid2 : validFrom g x s2 := by
          rw [← hend1]
          exact hvsplit2.1
        have hclosed2 : walkEnd x s2 = x := by
          rw [walkEnd, hm2]
          simp [List.getLastD_concat]
        have hnb2 : NonBacktracking s2 := by
          have h := hnb
          rw [NonBacktracking, hS, List.map_append, List.map_append] at h
          exact (List.chain'_append.mp (List.chain'_append.mp h).2.1).1
        have hlt : s2.length < n := by
          rw [← hlen, hS]
          simp only [List.length_append]
          have h2 : 0 < s1.length := List.length_pos.mpr hs1ne
          omega
        exact ih s2.length hlt s2 x rfl hvalid2 hnb2 hs2ne hclosed2

/-- `walkEnd` of a walk extended by one step is the new node. -/
theorem walkEnd_concat (v0 : Nat) (s : List (Nat × Nat)) (e w : Nat) :
    walkEnd v0 (s ++ [(e, w)]) = w := by
  rw [walkEnd, List.map_append]
  simp

/-- In an acyclic well-formed graph the trace loop never succeeds: the
accumulated cycle lists always encode a non-backtracking walk from the
target node ending at `current_from`, with the pending edge joining
`current_from` to the current node, so success would close that walk. -/
theorem traceAux_acyclic_none {g : WallGraph}
    (hs1 : ∀ e ∈ g.edges, e.node_ids.1 ≠ e.node_ids.2)
    (hs2 : (g.edges.map (fun e => sortPair e.node_ids.1 e.node_ids.2)).Nodup)
    (hacyc : Acyclic g) (used : List DirectedKey) (v0 : Nat) :
    ∀ (fuel : Nat) (ce : GraphEdge) (cf : Nat) (cn : GraphNode)
      (ns : List Nat) (ks : List DirectedKey),
      ks.length = ns.length →
      validFrom g v0 ((ks.map Prod.fst).zip ns) →
      walkEnd v0 ((ks.map Prod.fst).zip ns) = cf →
      List.Chain' (fun a b => a ≠ b) (ks.map Prod.fst ++ [ce.id]) →
      ce ∈ g.edges →
      (ce.node_ids = (cf, cn.id) ∨ ce.node_ids = (cn.id, cf)) →
      traceAux g used v0 fuel ce cf cn ns ks = none := by
  intro fuel
  induction fuel with
  | zero =>
    intro ce cf cn ns ks _ _ _ _ _ _
    rfl
  | succ fuel ih =>
    intro ce cf cn ns ks hlen hvalid hend hchain hmem hends
    have hlen2 : (ks.map Prod.fst).length = ns.length := by simpa using hlen
    have econn : edgeConnects g ce.id cf cn.id := ⟨ce, hmem, rfl, hends⟩
    have hzip : ((ks ++ [(ce.id, cf)]).map Prod.fst).zip (ns ++ [cn.id]) =
        (ks.map Prod.fst).zip ns ++ [(ce.id, cn.id)] := by
      rw [List.map_append, List.zip_append hlen2]
      simp
    have hvalid2 : validFrom g v0 ((ks.map Prod.fst).zip ns ++ [(ce.id, cn.id)]) := by
      rw [validFrom_append]
      exact ⟨hvalid, by rw [hend]; exact ⟨econn, trivial⟩⟩
    have hend2 : walkEnd v0 ((ks.map Prod.fst).zip ns ++ [(ce.id, cn.id)]) = cn.id :=
      walkEnd_concat v0 _ ce.id cn.id
    simp only [traceAux]
    by_cases hused : (ce.id, cf) ∈ used
    · rw [if_pos hused]
    · rw [if_neg hused]
      by_cases hsucc : cn.id = v0 ∧ 3 ≤ (ns ++ [cn.id]).length
      · rw [if_pos hsucc]
        exfalso
        have hnb : NonBacktracking ((ks.map Prod.fst).zip ns ++ [(ce.id, cn.id)]) := by
          rw [NonBacktracking, List.map_append,
            List.map_fst_zip _ _ (le_of_eq hlen2)]
          simpa using hchain
        have hne : (ks.map Prod.fst).zip ns ++ [(ce.id, cn.id)] ≠ [] := by simp
        have hcl : walkEnd v0 ((ks.map Prod.fst).zip ns ++ [(ce.id, cn.id)]) = v0 := by
          rw [hend2]
          exact hsucc.1
        exact no_closed_walk hs1 hs2 hacyc _ _ v0 rfl hvalid2 hnb hne hcl
      · rw [if_neg hsucc]
        cases hfn : findNode g cf with
        | none => rfl
        | some prev =>
          dsimp only
          cases hfr : find_rightmost_edge g cn prev ce with
          | none => rfl
          | some ne2 =>
            dsimp only
            cases hon : get_other_node g ne2 cn.id with
            | none => rfl
            | some nn =>
              obtain ⟨hne2mem, hne2ne⟩ := find_rightmost_edge_spec hfr
              have hch : List.Chain' (fun a b => a ≠ b)
                  ((ks ++ [(ce.id, cf)]).map Prod.fst ++ [ne2.id]) := by
                rw [List.map_append]
                simp only [List.map_cons, List.map_nil]
                refine List.chain'_append.mpr ⟨hchain, List.chain'_singleton _, ?_⟩
                intro x hx y hy
                simp only [List.getLast?_concat, List.head?_cons, Option.mem_def,
                  Option.some_inj] at hx hy
                rw [← hx, ← hy]
                exact fun h => hne2ne h.symm
              show traceAux g used v0 fuel ne2 cn.id nn (ns ++ [cn.id])
                (ks ++ [(ce.id, cf)]) = none
              refine ih ne2 cn.id nn (ns ++ [cn.id]) (ks ++ [(ce.id, cf)])
                (by simp [hlen]) ?_ ?_ hch hne2mem (get_other_node_connects hon)
              · rw [hzip]
                exact hvalid2
              · rw [hzip]
                exact hend2

/-- In an acyclic well-formed graph `trace_cycle` fails from every start
edge and direction. -/
theorem trace_cycle_acyclic_none {g : WallGraph}
    (hs1 : ∀ e ∈ g.edges, e.node_ids.1 ≠ e.node_ids.2)
    (hs2 : (g.edges.map (fun e => sortPair e.node_ids.1 e.node_ids.2)).Nodup)
    (hacyc : Acyclic g) (used : List DirectedKey) (e : GraphEdge)
    (hmem : e ∈ g.edges) (v0 : Nat) :
    trace_cycle g used e v0 = none := by
  rw [trace_cycle]
  cases hon : get_other_node g e v0 with
  | none => rfl
  | some cn =>
    dsimp only
    cases hfn : findNode g v0 with
    | none => rfl
    | some sn =>
      dsimp only
      rw [traceAux_acyclic_none hs1 hs2 hacyc used v0 (2 * g.edges.length + 10)
        e v0 cn [] [] rfl trivial rfl (by simp) hmem (get_other_node_connects hon)]

/-- In an acyclic well-formed graph the outer loop of `find_cycles` collects
nothing. -/
theorem findCyclesAux_acyclic_nil {g : WallGraph}
    (hs1 : ∀ e ∈ g.edges, e.node_ids.1 ≠ e.node_ids.2)
    (hs2 : (g.edges.map (fun e => sortPair e.node_ids.1 e.node_ids.2)).Nodup)
    (hacyc : Acyclic g) :
    ∀ (l : List GraphEdge), (∀ e ∈ l, e ∈ g.edges) →
      ∀ used, findCyclesAux g l used = [] := by
  intro l
  induction l with
  | nil =>
    intro _ used
    rfl
  | cons e rest ih =>
    intro hsub used
    have hmem : e ∈ g.edges := hsub e (List.mem_cons_self e rest)
    have h1 : traceFrom g used e e.node_ids.1 = ([], used) := by
      rw [traceFrom]
      split
      · rfl
      · rw [trace_cycle_acyclic_none hs1 hs2 hacyc used e hmem]
    have h2 : traceFrom g used e e.node_ids.2 = ([], used) := by
      rw [traceFrom]
      split
      · rfl
      · rw [trace_cycle_acyclic_none hs1 hs2 hacyc used e hmem]
    simp only [findCyclesAux, h1, h2]
    simpa using ih (fun x hx => hsub x (List.mem_cons_of_mem e hx)) used

/-- The single-wall graph has no closed loop: its only edge has id `0`, so
any walk of length three would traverse edge `0` twice in a row. -/
theorem gSingle_acyclic : Acyclic gSingle := by
  rintro ⟨v0, steps, hvalid, hnb, hlen3, -, -⟩
  rcases steps with _ | ⟨⟨e1, w1⟩, t⟩
  · simp at hlen3
  rcases t with _ | ⟨⟨e2, w2⟩, t2⟩
  · simp at hlen3
  obtain ⟨h1, h2, -⟩ := hvalid
  have he1 : e1 = 0 := by
    obtain ⟨ed, hmem, hid, -⟩ := h1
    rw [gSingle_eq] at hmem
    simp only [List.mem_singleton] at hmem
    rw [← hid, hmem]
  have he2 : e2 = 0 := by
    obtain ⟨ed, hmem, hid, -⟩ := h2
    rw [gSingle_eq] at hmem
    simp only [List.mem_singleton] at hmem
    rw [← hid, hmem]
  rw [NonBacktracking, List.map_cons, List.map_cons, List.chain'_cons] at hnb
  exact hnb.1 (by rw [he1, he2])

/-- Claim C3: for every built wall graph containing no closed loop,
`find_cycles` returns the empty list at every `min_area` (the embedding is
total, so no exception channel exists); moreover every traversal step that
reaches a dead end — a node whose incident edge list has at most one
entry — aborts the trace: `find_rightmost_edge` returns `none` there. -/
theorem c3_acyclic_no_cycles (tol min_area : ℚ) (ws : List Wall)
    (hacyc : Acyclic (add_walls (mkWallGraph tol) ws)) :
    find_cycles (add_walls (mkWallGraph tol) ws) min_area = [] ∧
    ∀ (cn pn : GraphNode) (ce : GraphEdge),
      (get_edges_from_node (add_walls (mkWallGraph tol) ws) cn.id).length ≤ 1 →
      find_rightmost_edge (add_walls (mkWallGraph tol) ws) cn pn ce = none := by
  have hinv := ginv_built tol ws
  set g := add_walls (mkWallGraph tol) ws with hg
  have hs1 := hinv.ends_distinct
  have hs2 : (g.edges.map (fun e => sortPair e.node_ids.1 e.node_ids.2)).Nodup := by
    rw [← hinv.keyset]
    exact hinv.keys_nodup
  constructor
  · have hraw : rawCycles g = [] :=
      findCyclesAux_acyclic_nil hs1 hs2 hacyc g.edges (fun _ h => h) []
    have hsurv : survivors g min_area = [] := by
      rw [survivors, hraw]
      rfl
    simp [find_cycles, hsurv]
  · intro cn pn ce hle
    rw [find_rightmost_edge]
    rcases Nat.le_one_iff_eq_zero_or_eq_one.mp hle with h0 | h1
    · simp [h0]
    · simp [h1]

theorem c3_acyclic_no_cycles_witness :
    find_cycles (add_walls (mkWallGraph (1/20))
      [ { id := 1, points := [(0, 0), (1, 0)] } ]) (1/2) = [] ∧
    ∀ (cn pn : GraphNode) (ce : GraphEdge),
      (get_edges_from_node (add_walls (mkWallGraph (1/20))
        [ { id := 1, points := [(0, 0), (1, 0)] } ]) cn.id).length ≤ 1 →
      find_rightmost_edge (add_walls (mkWallGraph (1/20))
        [ { id := 1, points := [(0, 0), (1, 0)] } ]) cn pn ce = none :=
  c3_acyclic_no_cycles (1/20) (1/2) [ { id := 1, points := [(0, 0), (1, 0)] } ]
    gSingle_acyclic

end ArchViz
